import Mathlib

/-!
Shallow embedding of the bastion-builder floor-plan editor core.

Conventions used throughout:
* TypeScript `number` values holding grid coordinates are embedded as `ℤ`;
  the parametric position `t` along a wall (a float in `[0,1]`) is embedded
  as `ℚ`.
* A TypeScript `Set<string>` of cell keys `"x,y"` is embedded as a
  `List Cell` (`Cell := ℤ × ℤ`) together with a `Nodup` hypothesis where the
  set-ness matters; `cellKey`/`parseCellKey` form a bijection between cells
  and their string keys, so the pair `(x, y)` is used directly as the key.
* A TypeScript `Map` used for grouping is embedded as grouping by first
  occurrence of the key (JS `Map` preserves insertion order and `get`/`set`
  update in place), and `Array.prototype.sort` (stable) is embedded with
  `List.insertionSort`; the rows being sorted always have pairwise distinct
  sort keys, so any stable sort produces the same list.
* The stateful TypeScript `IdFactory` closures (`makeId`) are embedded as an
  indexed supply `ℕ → String`: the i-th generated entity receives `makeId i`.
-/

/-- Grid cell address, `src/utils/selection.ts` `GridPoint` /
`parseCellKey` output. -/
abbrev Cell : Type := ℤ × ℤ

/-- Wall entity from `src/types.ts`. -/
structure Wall where
  id : String
  x1 : ℤ
  y1 : ℤ
  x2 : ℤ
  y2 : ℤ
deriving DecidableEq, Repr

/-- Room entity from `src/types.ts`; presentation metadata (name, color,
category) is outside the verified core and omitted, `cellKeys` is the
optional explicit footprint (empty list embeds an absent / empty array). -/
structure Room where
  id : String
  x : ℤ
  y : ℤ
  width : ℤ
  height : ℤ
  cellKeys : List Cell := []
deriving DecidableEq, Repr

/-- Door entity from `src/types.ts`. -/
structure Door where
  id : String
  wallId : String
  segStart : ℤ
  segEnd : ℤ
deriving DecidableEq, Repr

/-- Window entity from `src/types.ts`. -/
structure WindowOpening where
  id : String
  wallId : String
  segStart : ℤ
  segEnd : ℤ
deriving DecidableEq, Repr

/-- Stair entity from `src/types.ts`; `type` and `direction` are plain
enumerations with no geometric content and are kept as strings. -/
structure Stair where
  id : String
  x : ℤ
  y : ℤ
  width : ℤ
  length : ℤ
  stairType : String := "straight"
  direction : String := "up"
  linkId : String := ""
  targetLevelId : String := ""
deriving DecidableEq, Repr

/-- Per-level geometry from `src/types.ts`; `stairs` embeds the optional
`stairs` array (the code reads it as `geometry.stairs ?? []`). -/
structure FloorGeometry where
  rooms : List Room := []
  walls : List Wall := []
  doors : List Door := []
  windows : List WindowOpening := []
  stairs : List Stair := []
deriving DecidableEq, Repr

/-- Level from `src/types.ts`. -/
structure Level where
  id : String
  name : String
  elevation : ℤ
  geometry : FloorGeometry
deriving DecidableEq, Repr

/-- Project document from `src/types.ts`. -/
structure Project where
  id : String
  name : String
  levels : List Level
  version : ℤ
deriving DecidableEq, Repr

/-! ## Embedding of `src/utils/rooms.ts` -/

/-- Edge orientation tag (`"h" | "v"` in the source). -/
inductive Orient where
  | h
  | v
deriving DecidableEq, Repr

/-- Unit boundary edge, `rooms.ts` interface `Edge`. -/
structure Edge where
  x1 : ℤ
  y1 : ℤ
  x2 : ℤ
  y2 : ℤ
  dir : Orient
deriving DecidableEq, Repr

/-- Fold computing the minimum, `Math.min(...xs)` over a nonempty list whose
head is `x0`. -/
def listMin (x0 : ℤ) (xs : List ℤ) : ℤ := xs.foldl min x0

/-- Fold computing the maximum, `Math.max(...xs)` over a nonempty list whose
head is `x0`. -/
def listMax (x0 : ℤ) (xs : List ℤ) : ℤ := xs.foldl max x0

/-- Embedding of `createRoomFromCellKeys` (`rooms.ts`): bounding box of a
cell set; `null` for the empty set. -/
def createRoomFromCellKeys (cellKeys : List Cell) (id : String) : Option Room :=
  match cellKeys with
  | [] => none
  | c :: rest =>
      let minX := listMin c.1 (rest.map Prod.fst)
      let maxX := listMax c.1 (rest.map Prod.fst)
      let minY := listMin c.2 (rest.map Prod.snd)
      let maxY := listMax c.2 (rest.map Prod.snd)
      some { id := id
             x := minX
             y := minY
             width := maxX - minX + 1
             height := maxY - minY + 1
             cellKeys := cellKeys }

/-- Embedding of `hasRoomOverlap` (`rooms.ts`): closed-interval bound
comparison with `<=`, so touching rectangles do not count as overlapping. -/
def hasRoomOverlap (rooms : List Room) (candidate : Room) : Bool :=
  let leftA := candidate.x
  let rightA := candidate.x + candidate.width
  let topA := candidate.y
  let bottomA := candidate.y + candidate.height
  rooms.any fun room =>
    let leftB := room.x
    let rightB := room.x + room.width
    let topB := room.y
    let bottomB := room.y + room.height
    let noOverlap :=
      rightA ≤ leftB ∨ rightB ≤ leftA ∨ bottomA ≤ topB ∨ bottomB ≤ topA
    ¬ noOverlap

/-- Edges a single cell contributes in `perimeterEdgesFromCellKeys`
(`rooms.ts`): north, south, west, east sides, each emitted when the
corresponding neighbour cell is not selected. -/
def edgesOfCell (cells : List Cell) (c : Cell) : List Edge :=
  (if (c.1, c.2 - 1) ∈ cells then [] else
    [{ x1 := c.1, y1 := c.2, x2 := c.1 + 1, y2 := c.2, dir := .h }]) ++
  (if (c.1, c.2 + 1) ∈ cells then [] else
    [{ x1 := c.1, y1 := c.2 + 1, x2 := c.1 + 1, y2 := c.2 + 1, dir := .h }]) ++
  (if (c.1 - 1, c.2) ∈ cells then [] else
    [{ x1 := c.1, y1 := c.2, x2 := c.1, y2 := c.2 + 1, dir := .v }]) ++
  (if (c.1 + 1, c.2) ∈ cells then [] else
    [{ x1 := c.1 + 1, y1 := c.2, x2 := c.1 + 1, y2 := c.2 + 1, dir := .v }])

/-- Embedding of `perimeterEdgesFromCellKeys` (`rooms.ts`). -/
def perimeterEdgesFromCellKeys (cells : List Cell) : List Edge :=
  cells.flatMap (edgesOfCell cells)

/-- Distinct keys of a list in first-occurrence order; embeds the key order
of a JS `Map` built by insertion. -/
def firstOccs (l : List ℤ) : List ℤ :=
  l.foldl (fun acc y => if y ∈ acc then acc else acc ++ [y]) []

/-- Group a list by an integer key, keys in first-occurrence order and each
group in list order; embeds the `Map`-building loops of `mergeHorizontal` /
`mergeVertical` (`rooms.ts`). -/
def groupByKey (key : Edge → ℤ) (l : List Edge) : List (ℤ × List Edge) :=
  (firstOccs (l.map key)).map fun k => (k, l.filter fun e => key e = k)

/-- Scan step of `mergeHorizontal` (`rooms.ts`): walk the row sorted by
`x1`, extending `current` while the next edge starts where it ends. -/
def mergeRunH (y : ℤ) (current : Edge) : List Edge → List Edge
  | [] => [current]
  | next :: rest =>
      if current.x2 = next.x1 then
        mergeRunH y { x1 := current.x1, y1 := y, x2 := next.x2, y2 := y, dir := .h } rest
      else
        current :: mergeRunH y next rest

/-- Scan step of `mergeVertical` (`rooms.ts`). -/
def mergeRunV (x : ℤ) (current : Edge) : List Edge → List Edge
  | [] => [current]
  | next :: rest =>
      if current.y2 = next.y1 then
        mergeRunV x { x1 := x, y1 := current.y1, x2 := x, y2 := next.y2, dir := .v } rest
      else
        current :: mergeRunV x next rest

/-- One row of `mergeHorizontal`: sort by `x1` (stable, distinct keys) and
scan-merge. -/
def mergeRowH (y : ℤ) (rowEdges : List Edge) : List Edge :=
  match List.insertionSort (fun a b => a.x1 ≤ b.x1) rowEdges with
  | [] => []
  | e0 :: rest => mergeRunH y e0 rest

/-- One column of `mergeVertical`. -/
def mergeColV (x : ℤ) (colEdges : List Edge) : List Edge :=
  match List.insertionSort (fun a b => a.y1 ≤ b.y1) colEdges with
  | [] => []
  | e0 :: rest => mergeRunV x e0 rest

/-- Embedding of `mergeHorizontal` (`rooms.ts`). -/
def mergeHorizontal (edges : List Edge) : List Edge :=
  let horizontals := edges.filter fun e => e.dir = .h
  (groupByKey (fun e => e.y1) horizontals).flatMap fun p => mergeRowH p.1 p.2

/-- Embedding of `mergeVertical` (`rooms.ts`). -/
def mergeVertical (edges : List Edge) : List Edge :=
  let verticals := edges.filter fun e => e.dir = .v
  (groupByKey (fun e => e.x1) verticals).flatMap fun p => mergeColV p.1 p.2

/-- Embedding of `mergeEdges` (`rooms.ts`). -/
def mergeEdges (edges : List Edge) : List Edge :=
  mergeHorizontal edges ++ mergeVertical edges

/-- Embedding of `perimeterWallsFromCellKeys` (`rooms.ts`); the `IdFactory`
is an indexed supply. -/
def perimeterWallsFromCellKeys (cellKeys : List Cell) (makeId : ℕ → String) : List Wall :=
  (mergeEdges (perimeterEdgesFromCellKeys cellKeys)).enum.map fun p =>
    { id := makeId p.1, x1 := p.2.x1, y1 := p.2.y1, x2 := p.2.x2, y2 := p.2.y2 }

/-! ## Embedding of `src/utils/openings.ts` (`openingSegmentRange`) -/

/-- Wall length in cells as computed by `openingSegmentRange`
(`src/utils/openings.ts`): `|y2-y1|` for a vertical wall, otherwise
`|x2-x1|`. -/
def wallLenCells (w : Wall) : ℤ :=
  if w.x1 = w.x2 then |w.y2 - w.y1| else |w.x2 - w.x1|

/-- Embedding of `openingSegmentRange` (`src/utils/openings.ts`): order the
pair, scale by the wall length, floor the start and ceil the end; `null`
when the wall has zero length or the resulting segment is empty. -/
def openingSegmentRange (wall : Wall) (tStart tCurrent : ℚ) : Option (ℤ × ℤ) :=
  let length := wallLenCells wall
  if length = 0 then none
  else
    let segmentStart := ⌊min tStart tCurrent * (length : ℚ)⌋
    let segmentEnd := ⌈max tStart tCurrent * (length : ℚ)⌉
    if segmentEnd ≤ segmentStart then none
    else some (segmentStart, segmentEnd)

/-! ## Embedding of `src/utils/erase.ts` -/

/-- Embedding of `findRoomAtGrid` (`erase.ts`): first room whose bounding
rectangle contains the cell. -/
def findRoomAtGrid (x y : ℤ) (rooms : List Room) : Option Room :=
  rooms.find? fun r =>
    x ≥ r.x ∧ x < r.x + r.width ∧ y ≥ r.y ∧ y < r.y + r.height

/-- Embedding of `findWallsAroundRoom` (`erase.ts`): walls lying along the
room's bounding-rectangle edges. -/
def findWallsAroundRoom (room : Room) (walls : List Wall) : List Wall :=
  let leftX := room.x
  let rightX := room.x + room.width
  let topY := room.y
  let bottomY := room.y + room.height
  walls.filter fun w =>
    if w.y1 = w.y2 then
      let wy := w.y1
      let wx1 := min w.x1 w.x2
      let wx2 := max w.x1 w.x2
      (wx1 ≥ leftX ∧ wx2 ≤ rightX) ∧ (wy = topY ∨ wy = bottomY)
    else if w.x1 = w.x2 then
      let wx := w.x1
      let wy1 := min w.y1 w.y2
      let wy2 := max w.y1 w.y2
      (wy1 ≥ topY ∧ wy2 ≤ bottomY) ∧ (wx = leftX ∨ wx = rightX)
    else
      False

/-- Embedding of `removeWallsAndOpenings` (`erase.ts`): drop the given walls
and every door/window anchored to one of them; rooms and stairs are spread
through unchanged. -/
def removeWallsAndOpenings (wallsToRemove : List Wall) (geometry : FloorGeometry) :
    FloorGeometry :=
  let idsToRemove := wallsToRemove.map Wall.id
  { geometry with
    walls := geometry.walls.filter fun w => w.id ∉ idsToRemove
    doors := geometry.doors.filter fun d => d.wallId ∉ idsToRemove
    windows := geometry.windows.filter fun w => w.wallId ∉ idsToRemove }

/-- Embedding of `removeSingleWallAndOpenings` (`erase.ts`). -/
def removeSingleWallAndOpenings (wall : Wall) (geometry : FloorGeometry) : FloorGeometry :=
  removeWallsAndOpenings [wall] geometry

/-! ## Embedding of `src/app/src/utils/walls.ts` -/

/-- Embedding of `normalizeWall` (`src/app/src/utils/walls.ts`, the variant
imported by `src/app/src/components/Canvas.tsx`): reorder the endpoints so
the wall runs from the "smaller" end to the "larger". It is total — a
degenerate wall and a wall already satisfying `x1 < x2 || y1 < y2` are
returned unchanged, and any other wall (diagonals included) comes back with
its endpoints swapped; no wall is ever rejected. -/
def normalizeWall (wall : Wall) : Wall :=
  if wall.x1 = wall.x2 ∧ wall.y1 = wall.y2 then wall
  else if wall.x1 < wall.x2 ∨ wall.y1 < wall.y2 then wall
  else { wall with x1 := wall.x2, y1 := wall.y2, x2 := wall.x1, y2 := wall.y1 }

/-! ## Embedding of `src/components/Canvas.tsx` (drag ownership helpers) -/

/-- Direction-normalized endpoint pair; the source encodes it as the string
`"ax,ay|bx,by"`, an injective encoding of this ordered pair of points. -/
abbrev WallKey : Type := (ℤ × ℤ) × (ℤ × ℤ)

/-- Embedding of `wallKey` (`Canvas.tsx`): normalize direction so that the
key of `A -> B` equals the key of `B -> A`. -/
def wallKeyOf (w : Wall) : WallKey :=
  if w.x1 < w.x2 ∨ (w.x1 = w.x2 ∧ w.y1 ≤ w.y2) then
    ((w.x1, w.y1), (w.x2, w.y2))
  else
    ((w.x2, w.y2), (w.x1, w.y1))

/-- Cells of the inclusive rectangle `[x, x+w) × [y, y+h)`, row-major; the
fallback loops of `roomCellKeySet` (`Canvas.tsx`). -/
def rectCellList (x y w h : ℤ) : List Cell :=
  (List.range h.toNat).flatMap fun dy =>
    (List.range w.toNat).map fun dx => (x + (dx : ℤ), y + (dy : ℤ))

/-- Embedding of `roomCellKeySet` (`Canvas.tsx`): the explicit cell mask
when present and non-empty, otherwise the full bounding rectangle. -/
def roomCellKeySet (room : Room) : List Cell :=
  if room.cellKeys ≠ [] then room.cellKeys
  else rectCellList room.x room.y room.width room.height

/-- Embedding of `perimeterWallKeysForRoom` (`Canvas.tsx`): the set of
direction-normalized keys of the room's derived perimeter walls (the source
stores them in a `Set`, embedded as a deduplicated list). -/
def perimeterWallKeysForRoom (room : Room) : List WallKey :=
  ((perimeterWallsFromCellKeys (roomCellKeySet room) fun _ => "").map wallKeyOf).dedup

/-- Claim count of a wall key across all rooms of a level: the number of
rooms whose perimeter key set contains the key (`counts` in
`computeOwnedWallIds`, `Canvas.tsx`; each room's key set contributes at most
once per key because it is a `Set`). -/
def wallKeyClaimCount (rooms : List Room) (k : WallKey) : ℕ :=
  rooms.countP fun r => k ∈ perimeterWallKeysForRoom r

/-- Embedding of `computeOwnedWallIds` (`Canvas.tsx`): ids of geometry walls
whose key lies in the dragged room's perimeter and is claimed by exactly one
room. The source keeps per-room perimeters in a `Map` keyed by room id, so
with duplicate room ids the last occurrence wins (`reverse.find?`). -/
def computeOwnedWallIds (geometry : FloorGeometry) (draggedRoomId : String) : List String :=
  let myPerim :=
    match geometry.rooms.reverse.find? fun r => r.id = draggedRoomId with
    | some r => perimeterWallKeysForRoom r
    | none => []
  let ownedKeys := myPerim.filter fun k => wallKeyClaimCount geometry.rooms k = 1
  (geometry.walls.filter fun w => wallKeyOf w ∈ ownedKeys).map Wall.id

/-- Room translation performed by the room-move commit in `handleMouseUp`
(`Canvas.tsx`): translate the cell mask and recompute the bounding box when
a mask is present, otherwise translate the rectangle. -/
def moveRoomBy (room : Room) (dx dy : ℤ) : Room :=
  match room.cellKeys with
  | [] => { room with x := room.x + dx, y := room.y + dy }
  | c :: rest =>
      let newCellKeys := (c :: rest).map fun p => (p.1 + dx, p.2 + dy)
      let c' := (c.1 + dx, c.2 + dy)
      let rest' := rest.map fun p => (p.1 + dx, p.2 + dy)
      let minX := listMin c'.1 (rest'.map Prod.fst)
      let minY := listMin c'.2 (rest'.map Prod.snd)
      let maxX := listMax c'.1 (rest'.map Prod.fst)
      let maxY := listMax c'.2 (rest'.map Prod.snd)
      { room with
        cellKeys := newCellKeys
        x := minX
        y := minY
        width := maxX - minX + 1
        height := maxY - minY + 1 }

/-- Embedding of the room-move commit branch of `handleMouseUp`
(`Canvas.tsx`): with a non-zero net delta, translate the dragged room and
translate exactly the walls whose id is in the drag's owned set. -/
def commitRoomMove (geometry : FloorGeometry) (draggedRoomId : String)
    (ownedWallIds : List String) (dx dy : ℤ) : FloorGeometry :=
  if dx = 0 ∧ dy = 0 then geometry
  else
    let nextRooms := geometry.rooms.map fun r =>
      if r.id ≠ draggedRoomId then r else moveRoomBy r dx dy
    let nextWalls := geometry.walls.map fun w =>
      if w.id ∉ ownedWallIds then w
      else { w with x1 := w.x1 + dx, y1 := w.y1 + dy, x2 := w.x2 + dx, y2 := w.y2 + dy }
    { geometry with rooms := nextRooms, walls := nextWalls }

/-- Embedding of `finalizeWallDraft` (`Canvas.tsx`): `null` for a
zero-length draft, otherwise the wall from the start cell to the end cell
exactly as dragged. -/
def finalizeWallDraft (start finish : Cell) : Option Wall :=
  if start.1 = finish.1 ∧ start.2 = finish.2 then none
  else some { id := "", x1 := start.1, y1 := start.2, x2 := finish.1, y2 := finish.2 }

/-- Wall commit of `handleMouseUp` (`Canvas.tsx`): append the finalized
draft wall with a fresh id to the level geometry. -/
def commitWallDraft (geometry : FloorGeometry) (start finish : Cell)
    (newId : String) : FloorGeometry :=
  match finalizeWallDraft start finish with
  | none => geometry
  | some wall => { geometry with walls := geometry.walls ++ [{ wall with id := newId }] }

/-- Width of the stair rectangle derived in `finalizeStairDraft`
(`Canvas.tsx`). -/
def stairRectWidth (start finish : Cell) : ℤ :=
  max start.1 finish.1 - min start.1 finish.1 + 1

/-- Length of the stair rectangle derived in `finalizeStairDraft`
(`Canvas.tsx`). -/
def stairRectLength (start finish : Cell) : ℤ :=
  max start.2 finish.2 - min start.2 finish.2 + 1

/-- Embedding of `finalizeStairDraft` (`Canvas.tsx`): derive the min/max
bounding rectangle of the two drag corners; the early `return` on
non-positive dimensions is embedded as `none`; otherwise reposition the
edited stair or append a fresh one. -/
def finalizeStairDraft (start finish : Cell) (editingId : Option String)
    (geometry : FloorGeometry) (newStairId newLinkId targetLevelId : String) :
    Option FloorGeometry :=
  let minX := min start.1 finish.1
  let minY := min start.2 finish.2
  let width := stairRectWidth start finish
  let length := stairRectLength start finish
  if width ≤ 0 ∨ length ≤ 0 then none
  else
    match editingId with
    | some eid =>
        some { geometry with
               stairs := geometry.stairs.map fun s =>
                 if s.id = eid then { s with x := minX, y := minY, width := width, length := length }
                 else s }
    | none =>
        some { geometry with
               stairs := geometry.stairs ++
                 [{ id := newStairId, x := minX, y := minY, width := width, length := length,
                    stairType := "straight", direction := "up", linkId := newLinkId,
                    targetLevelId := targetLevelId }] }

/-- Embedding of `findStairAtCell` (`Canvas.tsx`): first stair whose
rectangle contains the cell. -/
def findStairAtCell (cell : Cell) (stairs : List Stair) : Option Stair :=
  stairs.find? fun s =>
    cell.1 ≥ s.x ∧ cell.1 < s.x + s.width ∧ cell.2 ≥ s.y ∧ cell.2 < s.y + s.length

/-- Embedding of `handleEraseAtPoint` (`Canvas.tsx`): priority order stair,
wall, room. The stair and room tests are grid lookups and are embedded
directly; the wall test is a screen-space pixel hit test
(`hitTestWallAtPoint`) and is embedded as the oracle argument `wallHit`. -/
def handleEraseAtPoint (cell : Cell) (wallHit : Option Wall)
    (geometry : FloorGeometry) : FloorGeometry :=
  match findStairAtCell cell geometry.stairs with
  | some stair => { geometry with stairs := geometry.stairs.filter fun s => s.id ≠ stair.id }
  | none =>
    match wallHit with
    | some w => removeSingleWallAndOpenings w geometry
    | none =>
      match findRoomAtGrid cell.1 cell.2 geometry.rooms with
      | some room =>
          let wallsToRemove := findWallsAroundRoom room geometry.walls
          let newGeom := { geometry with rooms := geometry.rooms.filter fun r => r.id ≠ room.id }
          removeWallsAndOpenings wallsToRemove newGeom
      | none => geometry

/-- Embedding of `confirmRoomSelection` (`Canvas.tsx`): build the room from
the draft cells, silently drop the draft on overlap, otherwise commit the
room together with its derived perimeter walls. -/
def confirmRoomSelection (selectedCells : List Cell) (geometry : FloorGeometry)
    (roomId : String) (makeWallId : ℕ → String) : FloorGeometry :=
  if selectedCells = [] then geometry
  else
    match createRoomFromCellKeys selectedCells roomId with
    | none => geometry
    | some room =>
        if hasRoomOverlap geometry.rooms room then geometry
        else
          let walls := perimeterWallsFromCellKeys selectedCells makeWallId
          { geometry with
            rooms := geometry.rooms ++ [room]
            walls := geometry.walls ++ walls }

/-! ## Embedding of `server/server.js` (project synchronization) -/

/-- Subscriber connection as seen by `broadcastProject`: `readyState` is
collapsed to whether the socket is `OPEN`. -/
structure WsClient where
  cid : ℕ
  isOpen : Bool
deriving DecidableEq, Repr

/-- Server state: the in-memory `projects` map and the per-project
subscriber sets (`wsClientsByProjectId`); both JS `Map`s are embedded as
functions. -/
structure ServerState where
  projects : String → Option Project
  subs : String → List WsClient

/-- Result of the `PUT /api/projects/:id` handler. -/
inductive PutResult where
  | notFound
  | conflict (current : Project)
  | ok (updated : Project)
deriving Repr

/-- Embedding of `broadcastProject` (`server.js`): send the document to
every subscriber of the project id whose socket is open; the returned list
records the deliveries as `(client id, document)` pairs. -/
def broadcastProject (st : ServerState) (project : Project) : List (ℕ × Project) :=
  ((st.subs project.id).filter fun c => c.isOpen).map fun c => (c.cid, project)

/-- Embedding of the `PUT /api/projects/:id` handler (`server.js`):
optimistic-concurrency write. Matching version: store the incoming document
with the id enforced and the version bumped by exactly one, broadcast it,
and return it. Mismatched version: HTTP 409 with the current document and
no state change. (The handler's `typeof incoming.version !== "number"`
guard cannot fire in the embedding, where `version : ℤ` always holds a
number.) -/
def putProject (st : ServerState) (id : String) (incoming : Project) :
    PutResult × ServerState × List (ℕ × Project) :=
  match st.projects id with
  | none => (.notFound, st, [])
  | some current =>
      if incoming.version ≠ current.version then
        (.conflict current, st, [])
      else
        let updated := { incoming with id := id, version := current.version + 1 }
        let st' : ServerState :=
          { st with projects := fun k => if k = id then some updated else st.projects k }
        (.ok updated, st', broadcastProject st updated)

/-! ## Embedding of `src/components/HomeScreen.tsx` (client reconciliation) -/

/-- Embedding of `ensureRoomMetadata` (`src/utils/roomMetadata.ts`)
restricted to the modelled fields: the source only fills in the
presentation fields `name`, `category` and `color`, which are outside the
verified core, and leaves `id`, the bounding box and `cellKeys` unchanged. -/
def ensureRoomMetadata (room : Room) : Room := room

/-- Embedding of `normalizeProject` (`HomeScreen.tsx`): map
`ensureRoomMetadata` over every room of every level. -/
def normalizeProject (project : Project) : Project :=
  { project with
    levels := project.levels.map fun level =>
      { level with
        geometry := { level.geometry with
                      rooms := level.geometry.rooms.map ensureRoomMetadata } } }

/-- Level-selection reconciliation shared by both `ws.onmessage` handlers
(`HomeScreen.tsx`): keep the previous level id when the incoming document
still has it, otherwise fall back to `incoming.levels[0]?.id ?? null`. -/
def reconcileLevelId (prevId : Option String) (incoming : Project) : Option String :=
  match prevId with
  | some lid =>
      if incoming.levels.any fun l => l.id = lid then some lid
      else (incoming.levels.head?).map Level.id
  | none => (incoming.levels.head?).map Level.id

/-- Embedding of the first `ws.onmessage` handler (`HomeScreen.tsx`, plain
project view): replace the held document only when the incoming version is
strictly greater (or nothing is held yet), and reconcile the level
selection unconditionally, even when the document was not applied. -/
def onMessageV1 (prev : Option Project) (prevLevelId : Option String)
    (incoming : Project) : Option Project × Option String :=
  let nextDoc :=
    match prev with
    | none => incoming
    | some p => if incoming.version > p.version then incoming else p
  (some nextDoc, reconcileLevelId prevLevelId incoming)

/-- Selected-room reconciliation of the second `ws.onmessage` handler
(`HomeScreen.tsx`): keep the selection only when the room still exists on
the level the handler's closure considers current (the captured previous
level id, with the incoming document's first level as fallback). -/
def reconcileSelectedRoom (prevLevelId : Option String) (prevSel : Option String)
    (incoming : Project) : Option String :=
  match prevSel with
  | none => none
  | some sel =>
      let levelId :=
        match prevLevelId with
        | some lid => some lid
        | none => (incoming.levels.head?).map Level.id
      let current :=
        match levelId.bind fun lid => incoming.levels.find? fun l => l.id = lid with
        | some l => some l
        | none => incoming.levels.head?
      match current with
      | none => none
      | some l =>
          if l.geometry.rooms.any fun r => r.id = sel then some sel else none

/-- Embedding of the second `ws.onmessage` handler (`HomeScreen.tsx`,
`ProjectView`): normalize the incoming document, replace the held document
when nothing is held or the incoming version is greater than or equal, and
on application reconcile the level and room selections; otherwise leave
everything untouched. -/
def onMessageV2 (prev : Option Project) (prevLevelId : Option String)
    (prevSel : Option String) (incomingRaw : Project) :
    Option Project × Option String × Option String :=
  let incoming := normalizeProject incomingRaw
  let apply :=
    match prev with
    | none => true
    | some p => incoming.version ≥ p.version
  if apply then
    (some incoming, reconcileLevelId prevLevelId incoming,
     reconcileSelectedRoom prevLevelId prevSel incoming)
  else
    (prev, prevLevelId, prevSel)

/-! ## Claim C10: the stair-draft rejection branch is unreachable -/

/-- C10 (confirmed). For every pair of corner cells of a stair drag, the
rectangle computed in `finalizeStairDraft` as `x = min`, `y = min`,
`width = maxX - minX + 1`, `length = maxY - minY + 1` has `width ≥ 1` and
`length ≥ 1`, so the guard `width <= 0 || length <= 0` never fires and
every completed stair drag (create or edit) commits a geometry. -/
theorem stairDraft_guard_unreachable (start finish : Cell) (editingId : Option String)
    (geometry : FloorGeometry) (newStairId newLinkId targetLevelId : String) :
    1 ≤ stairRectWidth start finish ∧ 1 ≤ stairRectLength start finish ∧
    (finalizeStairDraft start finish editingId geometry
        newStairId newLinkId targetLevelId).isSome = true := by
  have hw : 1 ≤ stairRectWidth start finish := by
    unfold stairRectWidth; omega
  have hl : 1 ≤ stairRectLength start finish := by
    unfold stairRectLength; omega
  refine ⟨hw, hl, ?_⟩
  unfold finalizeStairDraft
  rw [if_neg (by omega)]
  cases editingId <;> simp

/-! ## Claim C5: the wall tool does not snap drafts to an axis -/

/-- C5 counterexample. Dragging the wall tool from cell `(0,0)` to cell
`(2,3)` — where `|dx| = 2 < 3 = |dy|`, so the claim demands a vertical wall
with `x2 = x1` — commits the raw diagonal wall `(0,0)-(2,3)`, which is
neither horizontal nor vertical. -/
theorem wallDraft_diagonal_counterexample :
    (commitWallDraft { } ((0 : ℤ), (0 : ℤ)) ((2 : ℤ), (3 : ℤ)) "wall-1").walls =
      [{ id := "wall-1", x1 := 0, y1 := 0, x2 := 2, y2 := 3 }] ∧
    ¬ ((2 : ℤ) = 0 ∨ (3 : ℤ) = 0) := by
  constructor
  · rfl
  · decide

/-- C5 as amended. For every wall-tool drag from a start cell to a distinct
end cell, no variant snaps the draft to an axis: `finalizeWallDraft`
(`src/components/Canvas.tsx`) returns the raw segment from start to end and
the commit appends it unchanged, while the `src/app` variant's
`normalizeWall` only reorders a wall's endpoints (returning every wall
unchanged or endpoint-swapped, never rejecting it), so a drag with
`dx ≠ 0` and `dy ≠ 0` commits a diagonal wall in both variants. -/
theorem wallDraft_keeps_endpoints (start finish : Cell) (h : start ≠ finish)
    (g : FloorGeometry) (newId : String) :
    finalizeWallDraft start finish =
      some { id := "", x1 := start.1, y1 := start.2, x2 := finish.1, y2 := finish.2 } ∧
    (commitWallDraft g start finish newId).walls =
      g.walls ++ [{ id := newId, x1 := start.1, y1 := start.2, x2 := finish.1, y2 := finish.2 }] ∧
    (∀ w : Wall, normalizeWall w = w ∨
      normalizeWall w = { w with x1 := w.x2, y1 := w.y2, x2 := w.x1, y2 := w.y1 }) ∧
    (start.1 ≠ finish.1 → start.2 ≠ finish.2 →
      (normalizeWall { id := newId, x1 := start.1, y1 := start.2,
                       x2 := finish.1, y2 := finish.2 }).x1 ≠
        (normalizeWall { id := newId, x1 := start.1, y1 := start.2,
                         x2 := finish.1, y2 := finish.2 }).x2 ∧
      (normalizeWall { id := newId, x1 := start.1, y1 := start.2,
                       x2 := finish.1, y2 := finish.2 }).y1 ≠
        (normalizeWall { id := newId, x1 := start.1, y1 := start.2,
                         x2 := finish.1, y2 := finish.2 }).y2) := by
  have hne : ¬ (start.1 = finish.1 ∧ start.2 = finish.2) := by
    intro hp
    exact h (Prod.ext hp.1 hp.2)
  have hdraft : finalizeWallDraft start finish =
      some { id := "", x1 := start.1, y1 := start.2, x2 := finish.1, y2 := finish.2 } := by
    unfold finalizeWallDraft
    exact if_neg hne
  refine ⟨hdraft, ?_, ?_, ?_⟩
  · unfold commitWallDraft
    rw [hdraft]
  · intro w
    unfold normalizeWall
    split_ifs
    · exact Or.inl rfl
    · exact Or.inl rfl
    · exact Or.inr rfl
  · intro hx hy
    unfold normalizeWall
    split_ifs with h1 h2
    · exact absurd h1.1 hx
    · exact ⟨hx, hy⟩
    · exact ⟨hx.symm, hy.symm⟩

/-- C5 witness. The amended claim evaluated at the drag `(0,0) → (2,3)`:
the raw diagonal draft is returned, and the `src/app` variant's
normalization keeps it diagonal rather than rejecting or flattening it. -/
theorem wallDraft_keeps_endpoints_witness :
    finalizeWallDraft ((0 : ℤ), (0 : ℤ)) ((2 : ℤ), (3 : ℤ)) =
      some { id := "", x1 := 0, y1 := 0, x2 := 2, y2 := 3 } ∧
    (normalizeWall { id := "wall-1", x1 := 0, y1 := 0, x2 := 2, y2 := 3 }).x1 ≠
      (normalizeWall { id := "wall-1", x1 := 0, y1 := 0, x2 := 2, y2 := 3 }).x2 ∧
    (normalizeWall { id := "wall-1", x1 := 0, y1 := 0, x2 := 2, y2 := 3 }).y1 ≠
      (normalizeWall { id := "wall-1", x1 := 0, y1 := 0, x2 := 2, y2 := 3 }).y2 := by
  have h := wallDraft_keeps_endpoints ((0 : ℤ), (0 : ℤ)) ((2 : ℤ), (3 : ℤ))
    (by decide) { } "wall-1"
  exact ⟨h.1, (h.2.2.2 (by decide) (by decide)).1, (h.2.2.2 (by decide) (by decide)).2⟩

/-! ## Claim C7: zero-width opening drags -/

/-- C7 counterexample. On the wall `(0,0)-(5,0)` (length 5 cells), the
zero-width drag `openingSegmentRange(wall, 1/2, 1/2)` returns the one-cell
range `[2, 3)` rather than no range. -/
theorem openingSegmentRange_zero_width_counterexample :
    openingSegmentRange { id := "w", x1 := 0, y1 := 0, x2 := 5, y2 := 0 }
      (1 / 2) (1 / 2) = some (2, 3) := by
  have hlen : wallLenCells { id := "w", x1 := 0, y1 := 0, x2 := 5, y2 := 0 } = 5 := by
    decide
  have hprod : min (1 / 2 : ℚ) (1 / 2) * ((5 : ℤ) : ℚ) = 5 / 2 := by
    rw [min_self]; norm_num
  have hprod' : max (1 / 2 : ℚ) (1 / 2) * ((5 : ℤ) : ℚ) = 5 / 2 := by
    rw [max_self]; norm_num
  have hfloor : ⌊(5 / 2 : ℚ)⌋ = 2 := by
    rw [Int.floor_eq_iff]
    constructor <;> norm_num
  have hceil : ⌈(5 / 2 : ℚ)⌉ = 3 := by
    rw [Int.ceil_eq_iff]
    constructor <;> norm_num
  unfold openingSegmentRange
  rw [hlen]
  rw [if_neg (by decide)]
  rw [hprod, hprod', hfloor, hceil]
  rw [if_neg (by decide)]

/-- C7 as amended. For every wall and parameter `t`, the zero-width drag
`openingSegmentRange(wall, t, t)` returns no range exactly when the wall
length is zero or `t · length` is an integer (fractional part zero); for a
fractional `t · length` it instead returns the single enclosing cell
`[⌊t·length⌋, ⌊t·length⌋ + 1)`. -/
theorem openingSegmentRange_zero_width (wall : Wall) (t : ℚ) :
    openingSegmentRange wall t t =
      if wallLenCells wall = 0 ∨ Int.fract (t * (wallLenCells wall : ℚ)) = 0 then none
      else some (⌊t * (wallLenCells wall : ℚ)⌋, ⌊t * (wallLenCells wall : ℚ)⌋ + 1) := by
  unfold openingSegmentRange
  rcases eq_or_ne (wallLenCells wall) 0 with h0 | h0
  · rw [if_pos h0, if_pos (Or.inl h0)]
  · rw [if_neg h0]
    rw [min_self, max_self]
    set a : ℚ := t * (wallLenCells wall : ℚ) with ha
    rcases eq_or_ne (Int.fract a) 0 with hfr | hfr
    · have hfl : (⌊a⌋ : ℚ) = a := by
        have hsub := Int.self_sub_floor a
        rw [hfr] at hsub
        linarith
      have hceil : ⌈a⌉ = ⌊a⌋ := by
        have h1 : ⌈a⌉ ≤ ⌊a⌋ := Int.ceil_le.mpr (le_of_eq hfl.symm)
        have h2 : ⌊a⌋ ≤ ⌈a⌉ := by exact_mod_cast hfl.le.trans (Int.le_ceil a)
        omega
      rw [if_pos (by rw [hceil]), if_pos (Or.inr hfr)]
    · have hlt : (⌊a⌋ : ℚ) < a := by
        have hle := Int.floor_le a
        have hne : (⌊a⌋ : ℚ) ≠ a := by
          intro h
          apply hfr
          rw [← Int.self_sub_floor a]
          linarith
        exact lt_of_le_of_ne hle hne
      have hceil : ⌈a⌉ = ⌊a⌋ + 1 := by
        have hub := Int.ceil_le_floor_add_one a
        have hlb : ⌊a⌋ + 1 ≤ ⌈a⌉ := by
          have h1 : (⌊a⌋ : ℚ) < (⌈a⌉ : ℚ) := lt_of_lt_of_le hlt (Int.le_ceil a)
          exact_mod_cast h1
        omega
      rw [if_neg (by omega), if_neg (by
        push_neg
        exact ⟨h0, hfr⟩)]
      rw [hceil]

/-! ## Claim C8: erasing a wall removes exactly it and its openings -/

/-- Helper: with pairwise-distinct wall ids, filtering out one member's id
removes exactly that wall. -/
theorem filter_id_ne_eq_erase (walls : List Wall) (w : Wall)
    (hmem : w ∈ walls) (hnd : (walls.map Wall.id).Nodup) :
    walls.filter (fun w' => w'.id ≠ w.id) = walls.erase w := by
  induction walls with
  | nil => cases hmem
  | cons a rest ih =>
      rw [List.map_cons, List.nodup_cons] at hnd
      rcases List.mem_cons.mp hmem with rfl | hmem'
      · rw [List.erase_cons_head]
        rw [List.filter_cons_of_neg (by simp)]
        apply List.filter_eq_self.mpr
        intro b hb
        simp only [ne_eq, decide_eq_true_eq]
        intro hid
        exact hnd.1 (hid ▸ List.mem_map_of_mem Wall.id hb)
      · have hane : a ≠ w := by
          rintro rfl
          exact hnd.1 (List.mem_map_of_mem Wall.id hmem')
        have haid : a.id ≠ w.id := by
          intro hid
          exact hnd.1 (hid ▸ List.mem_map_of_mem Wall.id hmem')
        rw [List.filter_cons_of_pos (by simpa using haid)]
        rw [List.erase_cons_tail]
        · rw [ih hmem' hnd.2]
        · simpa using hane

/-- C8 (confirmed). When the erase tool hits a wall (and no stair is under
the cursor), the geometry loses exactly that wall together with every door
and window whose `wallId` matches it; all other walls, doors and windows,
and all rooms and stairs, are unchanged. -/
theorem eraseWall_cascade (cell : Cell) (g : FloorGeometry) (w : Wall)
    (hstair : findStairAtCell cell g.stairs = none)
    (hmem : w ∈ g.walls) (hnd : (g.walls.map Wall.id).Nodup) :
    handleEraseAtPoint cell (some w) g = removeSingleWallAndOpenings w g ∧
    (removeSingleWallAndOpenings w g).walls = g.walls.erase w ∧
    (∀ d, d ∈ (removeSingleWallAndOpenings w g).doors ↔ d ∈ g.doors ∧ d.wallId ≠ w.id) ∧
    (∀ o, o ∈ (removeSingleWallAndOpenings w g).windows ↔ o ∈ g.windows ∧ o.wallId ≠ w.id) ∧
    (removeSingleWallAndOpenings w g).rooms = g.rooms ∧
    (removeSingleWallAndOpenings w g).stairs = g.stairs := by
  have hbranch : handleEraseAtPoint cell (some w) g = removeSingleWallAndOpenings w g := by
    unfold handleEraseAtPoint
    rw [hstair]
  refine ⟨hbranch, ?_, ?_, ?_, rfl, rfl⟩
  · show g.walls.filter _ = g.walls.erase w
    rw [← filter_id_ne_eq_erase g.walls w hmem hnd]
    apply List.filter_congr
    intro b _
    simp [removeSingleWallAndOpenings, removeWallsAndOpenings]
  · intro d
    simp [removeSingleWallAndOpenings, removeWallsAndOpenings, List.mem_filter]
  · intro o
    simp [removeSingleWallAndOpenings, removeWallsAndOpenings, List.mem_filter]

/-- C8 witness. The spec scenario: the wall `(0,0)-(5,0)` carries a door
with `segStart = 2`, `segEnd = 3`; erasing the wall also removes the door
and leaves the room and stair lists unchanged. -/
theorem eraseWall_cascade_witness :
    handleEraseAtPoint ((10 : ℤ), (10 : ℤ))
        (some { id := "w1", x1 := 0, y1 := 0, x2 := 5, y2 := 0 })
        { walls := [{ id := "w1", x1 := 0, y1 := 0, x2 := 5, y2 := 0 }],
          doors := [{ id := "d1", wallId := "w1", segStart := 2, segEnd := 3 }] } =
      ({ walls := [], doors := [] } : FloorGeometry) := by
  have h := eraseWall_cascade ((10 : ℤ), (10 : ℤ))
    { walls := [{ id := "w1", x1 := 0, y1 := 0, x2 := 5, y2 := 0 }],
      doors := [{ id := "d1", wallId := "w1", segStart := 2, segEnd := 3 }] }
    { id := "w1", x1 := 0, y1 := 0, x2 := 5, y2 := 0 }
    (by decide) (by decide) (by decide)
  rw [h.1]
  decide

/-! ## Claim C6: erase-room cascade and shared walls -/

/-- C6 counterexample. Two adjacent unit rooms at `(0,0)` and `(1,0)` share
the wall `x = 1, y ∈ [0,1]`: its claim count across the two rooms'
perimeter key sets is `2`, yet erasing the first room (no stair and no wall
under the cursor, cell `(0,0)` inside the room) deletes that shared wall —
the cascade uses `findWallsAroundRoom`, which keeps every wall on the
erased room's bounding-rectangle edges regardless of sharing. -/
theorem eraseRoom_deletes_shared_wall_counterexample :
    wallKeyClaimCount
        [{ id := "A", x := 0, y := 0, width := 1, height := 1, cellKeys := [(0, 0)] },
         { id := "B", x := 1, y := 0, width := 1, height := 1, cellKeys := [(1, 0)] }]
        (wallKeyOf { id := "ws", x1 := 1, y1 := 0, x2 := 1, y2 := 1 }) = 2 ∧
    { id := "ws", x1 := 1, y1 := 0, x2 := 1, y2 := 1 } ∉
      (handleEraseAtPoint ((0 : ℤ), (0 : ℤ)) none
        { rooms := [{ id := "A", x := 0, y := 0, width := 1, height := 1, cellKeys := [(0, 0)] },
                    { id := "B", x := 1, y := 0, width := 1, height := 1, cellKeys := [(1, 0)] }],
          walls := [{ id := "ws", x1 := 1, y1 := 0, x2 := 1, y2 := 1 }] }).walls := by
  constructor
  · decide
  · decide

/-- C6 as amended. When the erase tool fires at a point with no stair and
no wall hit but inside a room's bounding rectangle, the room is removed and
the cascade deletes exactly the walls selected by `findWallsAroundRoom` —
every wall lying along the erased room's bounding-rectangle edges, whether
or not it also lies on another room's perimeter — together with the doors
and windows anchored to those walls. -/
theorem eraseRoom_cascade (cell : Cell) (g : FloorGeometry) (room : Room)
    (hstair : findStairAtCell cell g.stairs = none)
    (hroom : findRoomAtGrid cell.1 cell.2 g.rooms = some room)
    (hnd : (g.walls.map Wall.id).Nodup) :
    (handleEraseAtPoint cell none g).rooms = g.rooms.filter (fun r => r.id ≠ room.id) ∧
    (∀ w ∈ g.walls,
      (w ∈ findWallsAroundRoom room g.walls → w ∉ (handleEraseAtPoint cell none g).walls) ∧
      (w ∉ findWallsAroundRoom room g.walls → w ∈ (handleEraseAtPoint cell none g).walls)) ∧
    (∀ d, d ∈ (handleEraseAtPoint cell none g).doors ↔
      d ∈ g.doors ∧ d.wallId ∉ (findWallsAroundRoom room g.walls).map Wall.id) ∧
    (∀ o, o ∈ (handleEraseAtPoint cell none g).windows ↔
      o ∈ g.windows ∧ o.wallId ∉ (findWallsAroundRoom room g.walls).map Wall.id) ∧
    (handleEraseAtPoint cell none g).stairs = g.stairs := by
  have hbranch : handleEraseAtPoint cell none g =
      removeWallsAndOpenings (findWallsAroundRoom room g.walls)
        { g with rooms := g.rooms.filter (fun r => r.id ≠ room.id) } := by
    unfold handleEraseAtPoint
    rw [hstair, hroom]
  rw [hbranch]
  refine ⟨rfl, ?_, ?_, ?_, rfl⟩
  · intro w hw
    constructor
    · intro hrem hcontra
      rw [removeWallsAndOpenings] at hcontra
      simp only [List.mem_filter, decide_eq_true_eq] at hcontra
      exact hcontra.2 (List.mem_map_of_mem Wall.id hrem)
    · intro hnotrem
      rw [removeWallsAndOpenings]
      simp only [List.mem_filter, decide_eq_true_eq]
      refine ⟨hw, ?_⟩
      intro hid
      rcases List.mem_map.mp hid with ⟨w', hw', hid'⟩
      have hw'mem : w' ∈ g.walls :=
        List.mem_of_mem_filter hw'
      have : w' = w := List.inj_on_of_nodup_map hnd hw'mem hw hid'
      exact hnotrem (this ▸ hw')
  · intro d
    simp [removeWallsAndOpenings, List.mem_filter]
  · intro o
    simp [removeWallsAndOpenings, List.mem_filter]

/-- C6 amended-claim witness. The cascade theorem evaluated on the two
adjacent unit rooms: erasing room `A` removes it and the shared wall. -/
theorem eraseRoom_cascade_witness :
    (handleEraseAtPoint ((0 : ℤ), (0 : ℤ)) none
      { rooms := [{ id := "A", x := 0, y := 0, width := 1, height := 1, cellKeys := [(0, 0)] },
                  { id := "B", x := 1, y := 0, width := 1, height := 1, cellKeys := [(1, 0)] }],
        walls := [{ id := "ws", x1 := 1, y1 := 0, x2 := 1, y2 := 1 }] }).rooms =
      [{ id := "B", x := 1, y := 0, width := 1, height := 1, cellKeys := [(1, 0)] }] ∧
    { id := "ws", x1 := 1, y1 := 0, x2 := 1, y2 := 1 } ∉
      (handleEraseAtPoint ((0 : ℤ), (0 : ℤ)) none
        { rooms := [{ id := "A", x := 0, y := 0, width := 1, height := 1, cellKeys := [(0, 0)] },
                    { id := "B", x := 1, y := 0, width := 1, height := 1, cellKeys := [(1, 0)] }],
          walls := [{ id := "ws", x1 := 1, y1 := 0, x2 := 1, y2 := 1 }] }).walls := by
  have h := eraseRoom_cascade ((0 : ℤ), (0 : ℤ))
    { rooms := [{ id := "A", x := 0, y := 0, width := 1, height := 1, cellKeys := [(0, 0)] },
                { id := "B", x := 1, y := 0, width := 1, height := 1, cellKeys := [(1, 0)] }],
      walls := [{ id := "ws", x1 := 1, y1 := 0, x2 := 1, y2 := 1 }] }
    { id := "A", x := 0, y := 0, width := 1, height := 1, cellKeys := [(0, 0)] }
    (by decide) (by decide) (by decide)
  constructor
  · rw [h.1]
    decide
  · exact (h.2.1 { id := "ws", x1 := 1, y1 := 0, x2 := 1, y2 := 1 } (by decide)).1 (by decide)

/-! ## Claim C1: optimistic-concurrency write -/

/-- C1 (confirmed). For a project held at version `N`: a write submitting
version `N` is accepted — the stored document is replaced by the incoming
one (id enforced), its version becomes exactly `N + 1`, other projects are
untouched, and the new document is delivered to every subscriber of the
project id (all of whose sockets are open); a write submitting any other
version is rejected with the server state unchanged, no broadcast, and the
current authoritative document returned to the writer. -/
theorem putProject_version_check (st : ServerState) (pid : String)
    (current incoming : Project) (hcur : st.projects pid = some current) :
    (incoming.version = current.version →
      putProject st pid incoming =
        ({ incoming with id := pid, version := current.version + 1 } |> fun updated =>
          (.ok updated,
           { st with projects := fun k => if k = pid then some updated else st.projects k },
           broadcastProject st updated)) ∧
      (∀ c ∈ st.subs pid, c.isOpen = true →
        (c.cid, { incoming with id := pid, version := current.version + 1 }) ∈
          (putProject st pid incoming).2.2)) ∧
    (incoming.version ≠ current.version →
      putProject st pid incoming = (.conflict current, st, [])) := by
  constructor
  · intro hv
    have hput : putProject st pid incoming =
        ({ incoming with id := pid, version := current.version + 1 } |> fun updated =>
          (.ok updated,
           { st with projects := fun k => if k = pid then some updated else st.projects k },
           broadcastProject st updated)) := by
      unfold putProject
      rw [hcur]
      simp only [hv, ne_eq, not_true_eq_false, if_neg, ite_false, if_false]
    refine ⟨hput, ?_⟩
    intro c hc hopen
    rw [hput]
    show (c.cid, _) ∈ broadcastProject st _
    unfold broadcastProject
    simp only
    apply List.mem_map.mpr
    refine ⟨c, ?_, rfl⟩
    apply List.mem_filter.mpr
    exact ⟨hc, by simpa using hopen⟩
  · intro hv
    unfold putProject
    rw [hcur]
    dsimp only
    rw [if_pos hv]

/-- C1 witness. A concrete server holding project `"p"` at version `3` with
one open subscriber: the matching write is accepted at version `4` and
delivered to the subscriber; the stale write at version `2` is rejected
with the authoritative document returned. -/
theorem putProject_version_check_witness :
    ((putProject
        { projects := fun k => if k = "p" then
            some { id := "p", name := "a", levels := [], version := 3 } else none,
          subs := fun k => if k = "p" then [{ cid := 1, isOpen := true }] else [] }
        "p" { id := "p", name := "b", levels := [], version := 3 }).1 =
      .ok { id := "p", name := "b", levels := [], version := 4 }) ∧
    ((1, { id := "p", name := "b", levels := [], version := 4 }) ∈
      (putProject
        { projects := fun k => if k = "p" then
            some { id := "p", name := "a", levels := [], version := 3 } else none,
          subs := fun k => if k = "p" then [{ cid := 1, isOpen := true }] else [] }
        "p" { id := "p", name := "b", levels := [], version := 3 }).2.2) ∧
    ((putProject
        { projects := fun k => if k = "p" then
            some { id := "p", name := "a", levels := [], version := 3 } else none,
          subs := fun k => if k = "p" then [{ cid := 1, isOpen := true }] else [] }
        "p" { id := "p", name := "b", levels := [], version := 2 }).1 =
      .conflict { id := "p", name := "a", levels := [], version := 3 }) := by
  have hok := putProject_version_check
    { projects := fun k => if k = "p" then
        some { id := "p", name := "a", levels := [], version := 3 } else none,
      subs := fun k => if k = "p" then [{ cid := 1, isOpen := true }] else [] }
    "p" { id := "p", name := "a", levels := [], version := 3 }
    { id := "p", name := "b", levels := [], version := 3 } (by simp)
  have hconf := putProject_version_check
    { projects := fun k => if k = "p" then
        some { id := "p", name := "a", levels := [], version := 3 } else none,
      subs := fun k => if k = "p" then [{ cid := 1, isOpen := true }] else [] }
    "p" { id := "p", name := "a", levels := [], version := 3 }
    { id := "p", name := "b", levels := [], version := 2 } (by simp)
  refine ⟨?_, ?_, ?_⟩
  · rw [(hok.1 rfl).1]
    rfl
  · exact (hok.1 rfl).2 { cid := 1, isOpen := true } (by simp) rfl
  · rw [hconf.2 (by decide)]

/-! ## Claim C9: client reconciliation of broadcast documents -/

/-- C9 counterexample. The first `ws.onmessage` client holds a document at
version `3` and receives a different document also at version `3` — an
incoming version greater than or equal to the local one — yet keeps its
local document: that client applies an update only when the version is
strictly greater. -/
theorem onMessageV1_equal_version_counterexample :
    (onMessageV1
        (some { id := "p", name := "a", levels := [], version := 3 })
        (some "L1")
        { id := "p", name := "b", levels := [], version := 3 }).1 =
      some { id := "p", name := "a", levels := [], version := 3 } ∧
    ({ id := "p", name := "b", levels := [], version := 3 } : Project).version ≥
      ({ id := "p", name := "a", levels := [], version := 3 } : Project).version ∧
    ({ id := "p", name := "a", levels := [], version := 3 } : Project) ≠
      { id := "p", name := "b", levels := [], version := 3 } := by
  refine ⟨?_, by decide, by decide⟩
  rfl

/-- C9 as amended. The `ProjectView` client replaces its document exactly
when the incoming version is greater than or equal to the local one, but
the other client view replaces only on a strictly greater version (and
reconciles its level selection even when it rejects the document). Both
keep the current-level selection exactly when a level with that id exists
in the incoming document, and otherwise fall back to the incoming
document's first-listed level (array order, not elevation order);
normalization preserves versions and level ids. -/
theorem onMessage_version_gating (prev : Project) (prevLvl : Option String)
    (prevSel : Option String) (incoming : Project) :
    ((onMessageV1 (some prev) prevLvl incoming).1 =
      some (if incoming.version > prev.version then incoming else prev)) ∧
    ((onMessageV1 (some prev) prevLvl incoming).2 = reconcileLevelId prevLvl incoming) ∧
    ((onMessageV2 (some prev) prevLvl prevSel incoming).1 =
      (if incoming.version ≥ prev.version then some (normalizeProject incoming)
       else some prev)) ∧
    (incoming.version ≥ prev.version →
      (onMessageV2 (some prev) prevLvl prevSel incoming).2.1 =
        reconcileLevelId prevLvl (normalizeProject incoming)) ∧
    (¬ incoming.version ≥ prev.version →
      (onMessageV2 (some prev) prevLvl prevSel incoming).2.1 = prevLvl) ∧
    (∀ lid, prevLvl = some lid →
      reconcileLevelId prevLvl incoming =
        (if incoming.levels.any (fun l => l.id = lid) then some lid
         else (incoming.levels.head?).map Level.id)) ∧
    ((normalizeProject incoming).version = incoming.version ∧
     (normalizeProject incoming).levels.map Level.id = incoming.levels.map Level.id) := by
  refine ⟨?_, rfl, ?_, ?_, ?_, ?_, ?_, ?_⟩
  · unfold onMessageV1
    by_cases h : incoming.version > prev.version <;> simp [h]
  · unfold onMessageV2
    by_cases h : incoming.version ≥ prev.version
    · rw [if_pos h]
      rw [if_pos (show decide ((normalizeProject incoming).version ≥ prev.version) = true by
        simpa using h)]
    · rw [if_neg h]
      rw [if_neg (show ¬ decide ((normalizeProject incoming).version ≥ prev.version) = true by
        simpa using h)]
  · intro h
    unfold onMessageV2
    rw [if_pos (show decide ((normalizeProject incoming).version ≥ prev.version) = true by
      simpa using h)]
  · intro h
    unfold onMessageV2
    rw [if_neg (show ¬ decide ((normalizeProject incoming).version ≥ prev.version) = true by
      simpa using h)]
  · intro lid hlid
    rw [hlid]
    rfl
  · rfl
  · unfold normalizeProject
    simp

/-- C9 amended-claim witness. The gating evaluated at version `3` against
incoming version `3`: the first client view keeps its document, the
`ProjectView` client replaces it, and a vanished level selection falls back
to the incoming document's first level. -/
theorem onMessage_version_gating_witness :
    (onMessageV1
        (some { id := "p", name := "a", levels := [], version := 3 })
        (some "L1")
        { id := "p", name := "b",
          levels := [{ id := "L2", name := "f", elevation := 0, geometry := { } }],
          version := 3 }).1 =
      some { id := "p", name := "a", levels := [], version := 3 } ∧
    (onMessageV2
        (some { id := "p", name := "a", levels := [], version := 3 })
        (some "L1") none
        { id := "p", name := "b",
          levels := [{ id := "L2", name := "f", elevation := 0, geometry := { } }],
          version := 3 }).1 =
      some (normalizeProject
        { id := "p", name := "b",
          levels := [{ id := "L2", name := "f", elevation := 0, geometry := { } }],
          version := 3 }) ∧
    reconcileLevelId (some "L1")
        { id := "p", name := "b",
          levels := [{ id := "L2", name := "f", elevation := 0, geometry := { } }],
          version := 3 } = some "L2" := by
  have h := onMessage_version_gating
    { id := "p", name := "a", levels := [], version := 3 }
    (some "L1") none
    { id := "p", name := "b",
      levels := [{ id := "L2", name := "f", elevation := 0, geometry := { } }],
      version := 3 }
  refine ⟨?_, ?_, ?_⟩
  · rw [h.1]
    rfl
  · rw [h.2.2.1]
    rfl
  · rw [h.2.2.2.2.2.1 "L1" rfl]
    rfl

/-! ## Claim C3: overlap reporting and confirm commit -/

/-- Membership of a rational point in the open interior of a room's
bounding rectangle; the interior is nonempty exactly when the rectangle has
positive area. -/
def openRectMemQ (r : Room) (p : ℚ × ℚ) : Prop :=
  (r.x : ℚ) < p.1 ∧ p.1 < (r.x : ℚ) + (r.width : ℚ) ∧
  (r.y : ℚ) < p.2 ∧ p.2 < (r.y : ℚ) + (r.height : ℚ)

/-- Positive-area intersection of two rooms' bounding rectangles: some
point lies in both open interiors. -/
def posAreaIntersect (a b : Room) : Prop :=
  ∃ p : ℚ × ℚ, openRectMemQ a p ∧ openRectMemQ b p

/-- Helper: the running minimum of a fold is bounded by its seed. -/
theorem listMin_le_init (x0 : ℤ) (xs : List ℤ) : listMin x0 xs ≤ x0 := by
  induction xs generalizing x0 with
  | nil => exact le_refl x0
  | cons a rest ih =>
      calc listMin (min x0 a) rest ≤ min x0 a := ih (min x0 a)
        _ ≤ x0 := min_le_left x0 a

/-- Helper: the running maximum of a fold is bounded below by its seed. -/
theorem init_le_listMax (x0 : ℤ) (xs : List ℤ) : x0 ≤ listMax x0 xs := by
  induction xs generalizing x0 with
  | nil => exact le_refl x0
  | cons a rest ih =>
      calc x0 ≤ max x0 a := le_max_left x0 a
        _ ≤ listMax (max x0 a) rest := ih (max x0 a)

/-- Helper: a room built from a non-empty cell set has positive width and
height. -/
theorem createRoom_dims_pos (cells : List Cell) (roomId : String) (cand : Room)
    (hcand : createRoomFromCellKeys cells roomId = some cand) :
    1 ≤ cand.width ∧ 1 ≤ cand.height := by
  cases cells with
  | nil => cases hcand
  | cons c rest =>
      unfold createRoomFromCellKeys at hcand
      injection hcand with h
      subst h
      constructor
      · have h1 := listMin_le_init c.1 (rest.map Prod.fst)
        have h2 := init_le_listMax c.1 (rest.map Prod.fst)
        simp only []
        omega
      · have h1 := listMin_le_init c.2 (rest.map Prod.snd)
        have h2 := init_le_listMax c.2 (rest.map Prod.snd)
        simp only []
        omega

/-- Helper: the per-room boolean test of `hasRoomOverlap` holds exactly
when the two bounding rectangles intersect with positive area, provided
both have positive width and height. -/
theorem overlapBool_iff_posArea (A B : Room)
    (hA : 1 ≤ A.width ∧ 1 ≤ A.height) (hB : 1 ≤ B.width ∧ 1 ≤ B.height) :
    (¬ (A.x + A.width ≤ B.x ∨ B.x + B.width ≤ A.x ∨
        A.y + A.height ≤ B.y ∨ B.y + B.height ≤ A.y)) ↔ posAreaIntersect B A := by
  constructor
  · intro h
    push_neg at h
    obtain ⟨h1, h2, h3, h4⟩ := h
    refine ⟨((max (A.x : ℚ) (B.x : ℚ) + min ((A.x : ℚ) + A.width) ((B.x : ℚ) + B.width)) / 2,
             (max (A.y : ℚ) (B.y : ℚ) + min ((A.y : ℚ) + A.height) ((B.y : ℚ) + B.height)) / 2),
            ?_, ?_⟩
    · have hx : max (A.x : ℚ) (B.x : ℚ) < min ((A.x : ℚ) + A.width) ((B.x : ℚ) + B.width) := by
        rw [max_lt_iff, lt_min_iff, lt_min_iff]
        have hAw : (1 : ℚ) ≤ (A.width : ℚ) := by exact_mod_cast hA.1
        have hBw : (1 : ℚ) ≤ (B.width : ℚ) := by exact_mod_cast hB.1
        have h1' : (B.x : ℚ) < (A.x : ℚ) + (A.width : ℚ) := by exact_mod_cast h1
        have h2' : (A.x : ℚ) < (B.x : ℚ) + (B.width : ℚ) := by exact_mod_cast h2
        refine ⟨⟨by linarith, h2'⟩, h1', by linarith⟩
      have hy : max (A.y : ℚ) (B.y : ℚ) < min ((A.y : ℚ) + A.height) ((B.y : ℚ) + B.height) := by
        rw [max_lt_iff, lt_min_iff, lt_min_iff]
        have hAh : (1 : ℚ) ≤ (A.height : ℚ) := by exact_mod_cast hA.2
        have hBh : (1 : ℚ) ≤ (B.height : ℚ) := by exact_mod_cast hB.2
        have h3' : (B.y : ℚ) < (A.y : ℚ) + (A.height : ℚ) := by exact_mod_cast h3
        have h4' : (A.y : ℚ) < (B.y : ℚ) + (B.height : ℚ) := by exact_mod_cast h4
        refine ⟨⟨by linarith, h4'⟩, h3', by linarith⟩
      refine ⟨?_, ?_, ?_, ?_⟩
      · have := le_max_right (A.x : ℚ) (B.x : ℚ)
        linarith
      · have := min_le_right ((A.x : ℚ) + A.width) ((B.x : ℚ) + B.width)
        linarith
      · have := le_max_right (A.y : ℚ) (B.y : ℚ)
        linarith
      · have := min_le_right ((A.y : ℚ) + A.height) ((B.y : ℚ) + B.height)
        linarith
    · have hx : max (A.x : ℚ) (B.x : ℚ) < min ((A.x : ℚ) + A.width) ((B.x : ℚ) + B.width) := by
        rw [max_lt_iff, lt_min_iff, lt_min_iff]
        have hAw : (1 : ℚ) ≤ (A.width : ℚ) := by exact_mod_cast hA.1
        have hBw : (1 : ℚ) ≤ (B.width : ℚ) := by exact_mod_cast hB.1
        have h1' : (B.x : ℚ) < (A.x : ℚ) + (A.width : ℚ) := by exact_mod_cast h1
        have h2' : (A.x : ℚ) < (B.x : ℚ) + (B.width : ℚ) := by exact_mod_cast h2
        refine ⟨⟨by linarith, h2'⟩, h1', by linarith⟩
      have hy : max (A.y : ℚ) (B.y : ℚ) < min ((A.y : ℚ) + A.height) ((B.y : ℚ) + B.height) := by
        rw [max_lt_iff, lt_min_iff, lt_min_iff]
        have hAh : (1 : ℚ) ≤ (A.height : ℚ) := by exact_mod_cast hA.2
        have hBh : (1 : ℚ) ≤ (B.height : ℚ) := by exact_mod_cast hB.2
        have h3' : (B.y : ℚ) < (A.y : ℚ) + (A.height : ℚ) := by exact_mod_cast h3
        have h4' : (A.y : ℚ) < (B.y : ℚ) + (B.height : ℚ) := by exact_mod_cast h4
        refine ⟨⟨by linarith, h4'⟩, h3', by linarith⟩
      refine ⟨?_, ?_, ?_, ?_⟩
      · have := le_max_left (A.x : ℚ) (B.x : ℚ)
        linarith
      · have := min_le_left ((A.x : ℚ) + A.width) ((B.x : ℚ) + B.width)
        linarith
      · have := le_max_left (A.y : ℚ) (B.y : ℚ)
        linarith
      · have := min_le_left ((A.y : ℚ) + A.height) ((B.y : ℚ) + B.height)
        linarith
  · rintro ⟨p, hpB, hpA⟩
    obtain ⟨hB1, hB2, hB3, hB4⟩ := hpB
    obtain ⟨hA1, hA2, hA3, hA4⟩ := hpA
    push_neg
    refine ⟨?_, ?_, ?_, ?_⟩
    · exact_mod_cast lt_trans hB1 hA2
    · exact_mod_cast lt_trans hA1 hB2
    · exact_mod_cast lt_trans hB3 hA4
    · exact_mod_cast lt_trans hA3 hB4

/-- C3 (confirmed). A candidate room built from a non-empty draft is
reported overlapping by `hasRoomOverlap` exactly when some existing room's
bounding rectangle intersects it with positive area; `confirmRoomSelection`
commits it (appending it to the room list) when no existing room does —
zero-area edge or corner contact included — and leaves the level geometry
exactly unchanged when any existing room intersects it with positive
area. -/
theorem roomOverlap_iff_positive_area (g : FloorGeometry) (cells : List Cell)
    (roomId : String) (makeWallId : ℕ → String) (cand : Room)
    (hcand : createRoomFromCellKeys cells roomId = some cand)
    (hall : ∀ r ∈ g.rooms, 1 ≤ r.width ∧ 1 ≤ r.height) :
    (hasRoomOverlap g.rooms cand = true ↔ ∃ r ∈ g.rooms, posAreaIntersect r cand) ∧
    ((∀ r ∈ g.rooms, ¬ posAreaIntersect r cand) →
      (confirmRoomSelection cells g roomId makeWallId).rooms = g.rooms ++ [cand]) ∧
    ((∃ r ∈ g.rooms, posAreaIntersect r cand) →
      confirmRoomSelection cells g roomId makeWallId = g) := by
  have hdims := createRoom_dims_pos cells roomId cand hcand
  have hne : cells ≠ [] := by
    intro h
    subst h
    cases hcand
  have hiff : hasRoomOverlap g.rooms cand = true ↔ ∃ r ∈ g.rooms, posAreaIntersect r cand := by
    unfold hasRoomOverlap
    rw [List.any_eq_true]
    constructor
    · rintro ⟨r, hr, hb⟩
      refine ⟨r, hr, ?_⟩
      rw [decide_eq_true_eq] at hb
      exact (overlapBool_iff_posArea cand r hdims (hall r hr)).mp hb
    · rintro ⟨r, hr, hp⟩
      refine ⟨r, hr, ?_⟩
      rw [decide_eq_true_eq]
      exact (overlapBool_iff_posArea cand r hdims (hall r hr)).mpr hp
  have hconfirm : confirmRoomSelection cells g roomId makeWallId =
      (if hasRoomOverlap g.rooms cand then g
       else { g with
              rooms := g.rooms ++ [cand]
              walls := g.walls ++ perimeterWallsFromCellKeys cells makeWallId }) := by
    unfold confirmRoomSelection
    rw [if_neg hne, hcand]
  refine ⟨hiff, ?_, ?_⟩
  · intro hno
    have hfalse : hasRoomOverlap g.rooms cand = false := by
      rcases Bool.eq_false_or_eq_true (hasRoomOverlap g.rooms cand) with h | h
      · exfalso
        obtain ⟨r, hr, hp⟩ := hiff.mp h
        exact hno r hr hp
      · exact h
    rw [hconfirm, hfalse]
    rfl
  · intro hsome
    rw [hconfirm, hiff.mpr hsome]
    rfl

/-- C3 witness. Two unit rooms touching along the edge `x = 1` are not
reported overlapping and the candidate commits; shifted to overlap on a
unit square, the candidate is rejected with the geometry unchanged. -/
theorem roomOverlap_iff_positive_area_witness :
    (confirmRoomSelection [((1 : ℤ), (0 : ℤ))]
        { rooms := [{ id := "A", x := 0, y := 0, width := 1, height := 1 }] }
        "B" (fun _ => "w")).rooms =
      [{ id := "A", x := 0, y := 0, width := 1, height := 1 },
       { id := "B", x := 1, y := 0, width := 1, height := 1, cellKeys := [(1, 0)] }] ∧
    confirmRoomSelection [((0 : ℤ), (0 : ℤ))]
        { rooms := [{ id := "A", x := 0, y := 0, width := 1, height := 1 }] }
        "B" (fun _ => "w") =
      { rooms := [{ id := "A", x := 0, y := 0, width := 1, height := 1 }] } := by
  have hA : ∀ r ∈ [({ id := "A", x := 0, y := 0, width := 1, height := 1 } : Room)],
      1 ≤ r.width ∧ 1 ≤ r.height := by
    intro r hr
    rw [List.mem_singleton] at hr
    subst hr
    exact ⟨by decide, by decide⟩
  have h1 := roomOverlap_iff_positive_area
    { rooms := [{ id := "A", x := 0, y := 0, width := 1, height := 1 }] }
    [((1 : ℤ), (0 : ℤ))] "B" (fun _ => "w")
    { id := "B", x := 1, y := 0, width := 1, height := 1, cellKeys := [(1, 0)] }
    rfl hA
  have h2 := roomOverlap_iff_positive_area
    { rooms := [{ id := "A", x := 0, y := 0, width := 1, height := 1 }] }
    [((0 : ℤ), (0 : ℤ))] "B" (fun _ => "w")
    { id := "B", x := 0, y := 0, width := 1, height := 1, cellKeys := [(0, 0)] }
    rfl hA
  constructor
  · apply h1.2.1
    intro r hr hp
    rw [List.mem_singleton] at hr
    subst hr
    obtain ⟨p, hpA, hpB⟩ := hp
    obtain ⟨_, hA2, _, _⟩ := hpA
    obtain ⟨hB1, _, _, _⟩ := hpB
    simp only [Int.cast_zero, Int.cast_one] at hA2 hB1
    linarith
  · apply h2.2.2
    refine ⟨{ id := "A", x := 0, y := 0, width := 1, height := 1 }, List.mem_singleton.mpr rfl,
      ((1 : ℚ) / 2, (1 : ℚ) / 2), ?_, ?_⟩
    · refine ⟨by norm_num, by norm_num, by norm_num, by norm_num⟩
    · refine ⟨by norm_num, by norm_num, by norm_num, by norm_num⟩

/-! ## Claim C4: walls shared between rooms are never owned or moved -/

/-- Helper: a list containing two distinct elements has length at least
two. -/
theorem two_le_length_of_two_mem {α : Type} {l : List α} {a b : α}
    (ha : a ∈ l) (hb : b ∈ l) (hne : a ≠ b) : 2 ≤ l.length := by
  cases l with
  | nil => cases ha
  | cons x rest =>
      cases rest with
      | nil =>
          rw [List.mem_singleton] at ha hb
          exact absurd (ha.trans hb.symm) hne
      | cons y rest2 =>
          simp only [List.length_cons]
          omega

/-- Helper: two distinct members both satisfying a predicate force a count
of at least two. -/
theorem two_le_countP_of_two_mem {α : Type} (p : α → Bool) (l : List α) (a b : α)
    (ha : a ∈ l) (hb : b ∈ l) (hne : a ≠ b)
    (hpa : p a = true) (hpb : p b = true) : 2 ≤ l.countP p := by
  rw [List.countP_eq_length_filter]
  exact two_le_length_of_two_mem (List.mem_filter.mpr ⟨ha, hpa⟩)
    (List.mem_filter.mpr ⟨hb, hpb⟩) hne

/-- C4 (confirmed). A wall whose direction-normalized key lies in the
perimeter key sets of two distinct rooms has claim count at least two, so
it is excluded from the owned-wall set computed for any dragged room, and
completing a room-move drag with any net delta leaves it at exactly its
original endpoints (same list position, same value). -/
theorem sharedWall_not_owned_nor_moved (g : FloorGeometry) (r1 r2 : Room) (k : WallKey)
    (h1 : r1 ∈ g.rooms) (h2 : r2 ∈ g.rooms) (hne : r1 ≠ r2)
    (hk1 : k ∈ perimeterWallKeysForRoom r1) (hk2 : k ∈ perimeterWallKeysForRoom r2)
    (hnd : (g.walls.map Wall.id).Nodup) :
    ∀ draggedId : String, ∀ w ∈ g.walls, wallKeyOf w = k →
      w.id ∉ computeOwnedWallIds g draggedId ∧
      ∀ dx dy : ℤ, ∀ n : ℕ, g.walls[n]? = some w →
        (commitRoomMove g draggedId (computeOwnedWallIds g draggedId) dx dy).walls[n]? =
          some w := by
  have hcount : 2 ≤ wallKeyClaimCount g.rooms k := by
    apply two_le_countP_of_two_mem _ _ r1 r2 h1 h2 hne
    · exact decide_eq_true hk1
    · exact decide_eq_true hk2
  intro draggedId w hw hkey
  have hnotowned : w.id ∉ computeOwnedWallIds g draggedId := by
    intro hmem
    simp only [computeOwnedWallIds, List.mem_map, List.mem_filter,
      decide_eq_true_eq] at hmem
    obtain ⟨w', ⟨hw'mem, hw'key, hcount1⟩, hid⟩ := hmem
    have hweq : w' = w := List.inj_on_of_nodup_map hnd hw'mem hw hid
    subst hweq
    rw [hkey] at hcount1
    omega
  refine ⟨hnotowned, ?_⟩
  intro dx dy n hn
  unfold commitRoomMove
  by_cases hzero : dx = 0 ∧ dy = 0
  · rw [if_pos hzero]
    exact hn
  · rw [if_neg hzero]
    show (g.walls.map _)[n]? = some w
    rw [List.getElem?_map, hn, Option.map_some']
    rw [if_pos]
    exact hnotowned

/-- C4 witness. The spec scenario: two adjacent unit rooms at `(0,0)` and
`(1,0)` both claim the wall `x = 1, y ∈ [0,1]`; it is owned by neither, and
dragging the first room by `(0,1)` leaves it in place. -/
theorem sharedWall_not_owned_nor_moved_witness :
    "ws" ∉ computeOwnedWallIds
      { rooms := [{ id := "A", x := 0, y := 0, width := 1, height := 1, cellKeys := [(0, 0)] },
                  { id := "B", x := 1, y := 0, width := 1, height := 1, cellKeys := [(1, 0)] }],
        walls := [{ id := "ws", x1 := 1, y1 := 0, x2 := 1, y2 := 1 }] } "A" ∧
    (commitRoomMove
      { rooms := [{ id := "A", x := 0, y := 0, width := 1, height := 1, cellKeys := [(0, 0)] },
                  { id := "B", x := 1, y := 0, width := 1, height := 1, cellKeys := [(1, 0)] }],
        walls := [{ id := "ws", x1 := 1, y1 := 0, x2 := 1, y2 := 1 }] } "A"
      (computeOwnedWallIds
        { rooms := [{ id := "A", x := 0, y := 0, width := 1, height := 1, cellKeys := [(0, 0)] },
                    { id := "B", x := 1, y := 0, width := 1, height := 1, cellKeys := [(1, 0)] }],
          walls := [{ id := "ws", x1 := 1, y1 := 0, x2 := 1, y2 := 1 }] } "A")
      0 1).walls[0]? = some { id := "ws", x1 := 1, y1 := 0, x2 := 1, y2 := 1 } := by
  have h := sharedWall_not_owned_nor_moved
    { rooms := [{ id := "A", x := 0, y := 0, width := 1, height := 1, cellKeys := [(0, 0)] },
                { id := "B", x := 1, y := 0, width := 1, height := 1, cellKeys := [(1, 0)] }],
      walls := [{ id := "ws", x1 := 1, y1 := 0, x2 := 1, y2 := 1 }] }
    { id := "A", x := 0, y := 0, width := 1, height := 1, cellKeys := [(0, 0)] }
    { id := "B", x := 1, y := 0, width := 1, height := 1, cellKeys := [(1, 0)] }
    (((1 : ℤ), (0 : ℤ)), ((1 : ℤ), (1 : ℤ)))
    (by decide) (by decide) (by decide) (by decide) (by decide) (by decide)
  have hw := h "A" { id := "ws", x1 := 1, y1 := 0, x2 := 1, y2 := 1 } (by decide) (by decide)
  have hid : ({ id := "ws", x1 := 1, y1 := 0, x2 := 1, y2 := 1 } : Wall).id = "ws" := rfl
  exact ⟨hid ▸ hw.1, hw.2 0 1 0 (by decide)⟩

/-! ## Claim C2: merged perimeters contain no end-to-end collinear walls -/

/-- Separation invariant of raw perimeter edges: two horizontal edges on
the same row, or two vertical edges on the same column, never start at the
same position. -/
def edgeSep (e1 e2 : Edge) : Prop :=
  (e1.dir = .h → e2.dir = .h → e1.y1 = e2.y1 → e1.x1 ≠ e2.x1) ∧
  (e1.dir = .v → e2.dir = .v → e1.x1 = e2.x1 → e1.y1 ≠ e2.y1)

/-- Helper: membership in another cell transfers along coordinate
equalities. -/
theorem mem_pair_of_eq {cells : List Cell} {a b a' b' : ℤ}
    (h : ((a', b') : Cell) ∈ cells) (h1 : a = a') (h2 : b = b') :
    ((a, b) : Cell) ∈ cells := by
  subst h1
  subst h2
  exact h

/-- Characterization of the four candidate edges of `edgesOfCell`. -/
theorem mem_edgesOfCell {cells : List Cell} {c : Cell} {e : Edge} :
    e ∈ edgesOfCell cells c ↔
      ((c.1, c.2 - 1) ∉ cells ∧
        e = { x1 := c.1, y1 := c.2, x2 := c.1 + 1, y2 := c.2, dir := .h }) ∨
      ((c.1, c.2 + 1) ∉ cells ∧
        e = { x1 := c.1, y1 := c.2 + 1, x2 := c.1 + 1, y2 := c.2 + 1, dir := .h }) ∨
      ((c.1 - 1, c.2) ∉ cells ∧
        e = { x1 := c.1, y1 := c.2, x2 := c.1, y2 := c.2 + 1, dir := .v }) ∨
      ((c.1 + 1, c.2) ∉ cells ∧
        e = { x1 := c.1 + 1, y1 := c.2, x2 := c.1 + 1, y2 := c.2 + 1, dir := .v }) := by
  unfold edgesOfCell
  split_ifs <;> simp_all [or_assoc]

/-- Helper: the four edges a single cell emits pairwise satisfy the
separation invariant. -/
theorem edgesOfCell_pairwise (cells : List Cell) (c : Cell) :
    List.Pairwise edgeSep (edgesOfCell cells c) := by
  unfold edgesOfCell
  split_ifs <;> simp [List.pairwise_append, List.pairwise_cons, edgeSep]

/-- Helper: edges emitted by two distinct selected cells satisfy the
separation invariant — a shared geometric position would force one cell's
emission guard to contradict the other cell's membership. -/
theorem edgesOfCell_sep_of_ne {cells : List Cell} {c1 c2 : Cell}
    (hc1 : c1 ∈ cells) (hc2 : c2 ∈ cells) (hne : c1 ≠ c2) :
    ∀ e1 ∈ edgesOfCell cells c1, ∀ e2 ∈ edgesOfCell cells c2, edgeSep e1 e2 := by
  obtain ⟨a1, b1⟩ := c1
  obtain ⟨a2, b2⟩ := c2
  intro e1 he1 e2 he2
  rw [mem_edgesOfCell] at he1 he2
  rcases he1 with ⟨hg1, rfl⟩ | ⟨hg1, rfl⟩ | ⟨hg1, rfl⟩ | ⟨hg1, rfl⟩ <;>
    rcases he2 with ⟨hg2, rfl⟩ | ⟨hg2, rfl⟩ | ⟨hg2, rfl⟩ | ⟨hg2, rfl⟩ <;>
    refine ⟨fun hd1 hd2 heq => ?_, fun hd1 hd2 heq => ?_⟩ <;>
    intro hx <;>
    (try simp only [Edge.mk.injEq] at heq hx) <;>
    (try simp at hd1 hd2) <;>
    first
      | (refine hne (Prod.ext ?_ ?_) <;> (try simp only []) <;> omega)
      | (refine hg1 (mem_pair_of_eq hc2 ?_ ?_) <;> (try simp only []) <;> omega)

/-- Helper: over a duplicate-free cell set, all raw perimeter edges are
pairwise separated. -/
theorem perimeter_pairwise_sep (cells : List Cell) (hnd : cells.Nodup) :
    List.Pairwise edgeSep (perimeterEdgesFromCellKeys cells) := by
  unfold perimeterEdgesFromCellKeys
  rw [List.pairwise_flatMap]
  constructor
  · intro c _
    exact edgesOfCell_pairwise cells c
  · exact hnd.imp_of_mem fun {c1 c2} h1 h2 hne =>
      edgesOfCell_sep_of_ne h1 h2 hne

/-- Helper: every raw perimeter edge is a unit edge of its orientation. -/
theorem perimeter_edge_shape (cells : List Cell) :
    ∀ e ∈ perimeterEdgesFromCellKeys cells,
      (e.dir = .h → e.y2 = e.y1 ∧ e.x2 = e.x1 + 1) ∧
      (e.dir = .v → e.x2 = e.x1 ∧ e.y2 = e.y1 + 1) := by
  intro e he
  rw [perimeterEdgesFromCellKeys, List.mem_flatMap] at he
  obtain ⟨c, -, hec⟩ := he
  rw [mem_edgesOfCell] at hec
  rcases hec with ⟨-, rfl⟩ | ⟨-, rfl⟩ | ⟨-, rfl⟩ | ⟨-, rfl⟩ <;>
    constructor <;> intro hd <;>
    first
      | exact ⟨rfl, rfl⟩
      | exact absurd hd (by simp)

/-- Helper: the fold building first-occurrence key lists preserves
duplicate-freedom. -/
theorem foldl_firstOccs_nodup (l : List ℤ) :
    ∀ acc : List ℤ, acc.Nodup →
      (l.foldl (fun acc y => if y ∈ acc then acc else acc ++ [y]) acc).Nodup := by
  induction l with
  | nil => intro acc h; exact h
  | cons a rest ih =>
      intro acc h
      rw [List.foldl_cons]
      by_cases hmem : a ∈ acc
      · rw [if_pos hmem]
        exact ih acc h
      · rw [if_neg hmem]
        apply ih
        rw [List.nodup_append]
        refine ⟨h, List.nodup_singleton a, ?_⟩
        intro x hx hxa
        rw [List.mem_singleton] at hxa
        subst hxa
        exact hmem hx

/-- Helper: first-occurrence key lists are duplicate-free. -/
theorem firstOccs_nodup (l : List ℤ) : (firstOccs l).Nodup :=
  foldl_firstOccs_nodup l [] List.nodup_nil

/-- Helper: each group produced by `groupByKey` is the filter of the input
at its key. -/
theorem mem_groupByKey {key : Edge → ℤ} {l : List Edge} {k : ℤ} {es : List Edge}
    (h : (k, es) ∈ groupByKey key l) : es = l.filter fun e => key e = k := by
  unfold groupByKey at h
  rcases List.mem_map.mp h with ⟨k', -, heq⟩
  rw [Prod.mk.injEq] at heq
  obtain ⟨rfl, rfl⟩ := heq
  rfl

/-- Helper: the groups produced by `groupByKey` carry pairwise distinct
keys. -/
theorem groupByKey_keys_pairwise (key : Edge → ℤ) (l : List Edge) :
    List.Pairwise (fun p q : ℤ × List Edge => p.1 ≠ q.1) (groupByKey key l) := by
  unfold groupByKey
  rw [List.pairwise_map]
  exact firstOccs_nodup (l.map key)

/-- Helper: specification of the horizontal scan-merge run: starting from a
well-formed `current` and a chained tail, every output edge is a
non-degenerate horizontal segment of the row starting no earlier than
`current`, and consecutive outputs are strictly separated. -/
theorem mergeRunH_spec (y : ℤ) :
    ∀ (rest : List Edge) (current : Edge),
      current.x1 < current.x2 → current.y1 = y → current.y2 = y →
      (∀ e ∈ rest, e.x1 < e.x2 ∧ e.y1 = y ∧ e.y2 = y) →
      List.Chain' (fun a b => a.x2 ≤ b.x1) (current :: rest) →
      (∀ e ∈ mergeRunH y current rest,
        e.x1 < e.x2 ∧ e.y1 = y ∧ e.y2 = y ∧ current.x1 ≤ e.x1) ∧
      List.Pairwise (fun a b => a.x2 < b.x1) (mergeRunH y current rest) := by
  intro rest
  induction rest with
  | nil =>
      intro current h1 h2 h3 _ _
      rw [mergeRunH]
      constructor
      · intro e he
        rw [List.mem_singleton] at he
        subst he
        exact ⟨h1, h2, h3, le_refl _⟩
      · exact List.pairwise_singleton _ _
  | cons next rest' ih =>
      intro current h1 h2 h3 hrest hchain
      rw [List.chain'_cons] at hchain
      have hcn : current.x2 ≤ next.x1 := hchain.1
      have hnextf := hrest next (List.mem_cons_self next rest')
      rw [mergeRunH]
      by_cases heq : current.x2 = next.x1
      · rw [if_pos heq]
        have hres := ih { x1 := current.x1, y1 := y, x2 := next.x2, y2 := y, dir := .h }
          (by

            show current.x1 < next.x2
            omega)
          rfl rfl
          (fun e he => hrest e (List.mem_cons_of_mem next he))
          (by
            cases rest' with
            | nil => exact List.chain'_singleton _
            | cons r2 rest'' =>
                rw [List.chain'_cons] at hchain ⊢
                refine ⟨?_, hchain.2.2⟩
                show next.x2 ≤ r2.x1
                exact hchain.2.1)
        refine ⟨?_, hres.2⟩
        intro e he
        have := hres.1 e he
        refine ⟨this.1, this.2.1, this.2.2.1, ?_⟩
        have hx1 : current.x1 ≤
            ({ x1 := current.x1, y1 := y, x2 := next.x2, y2 := y, dir := .h } : Edge).x1 :=
          le_refl _
        exact le_trans hx1 this.2.2.2
      · rw [if_neg heq]
        have hlt : current.x2 < next.x1 := lt_of_le_of_ne hcn heq
        have hres := ih next hnextf.1 hnextf.2.1 hnextf.2.2
          (fun e he => hrest e (List.mem_cons_of_mem next he)) hchain.2
        constructor
        · intro e he
          rcases List.mem_cons.mp he with rfl | he'
          · exact ⟨h1, h2, h3, le_refl _⟩
          · have := hres.1 e he'
            refine ⟨this.1, this.2.1, this.2.2.1, ?_⟩
            have := this.2.2.2
            omega
        · rw [List.pairwise_cons]
          refine ⟨?_, hres.2⟩
          intro e he
          have := hres.1 e he
          have h4 := this.2.2.2
          omega

/-- Helper: specification of the vertical scan-merge run. -/
theorem mergeRunV_spec (x : ℤ) :
    ∀ (rest : List Edge) (current : Edge),
      current.y1 < current.y2 → current.x1 = x → current.x2 = x →
      (∀ e ∈ rest, e.y1 < e.y2 ∧ e.x1 = x ∧ e.x2 = x) →
      List.Chain' (fun a b => a.y2 ≤ b.y1) (current :: rest) →
      (∀ e ∈ mergeRunV x current rest,
        e.y1 < e.y2 ∧ e.x1 = x ∧ e.x2 = x ∧ current.y1 ≤ e.y1) ∧
      List.Pairwise (fun a b => a.y2 < b.y1) (mergeRunV x current rest) := by
  intro rest
  induction rest with
  | nil =>
      intro current h1 h2 h3 _ _
      rw [mergeRunV]
      constructor
      · intro e he
        rw [List.mem_singleton] at he
        subst he
        exact ⟨h1, h2, h3, le_refl _⟩
      · exact List.pairwise_singleton _ _
  | cons next rest' ih =>
      intro current h1 h2 h3 hrest hchain
      rw [List.chain'_cons] at hchain
      have hcn : current.y2 ≤ next.y1 := hchain.1
      have hnextf := hrest next (List.mem_cons_self next rest')
      rw [mergeRunV]
      by_cases heq : current.y2 = next.y1
      · rw [if_pos heq]
        have hres := ih { x1 := x, y1 := current.y1, x2 := x, y2 := next.y2, dir := .v }
          (by
            show current.y1 < next.y2
            omega)
          rfl rfl
          (fun e he => hrest e (List.mem_cons_of_mem next he))
          (by
            cases rest' with
            | nil => exact List.chain'_singleton _
            | cons r2 rest'' =>
                rw [List.chain'_cons] at hchain ⊢
                refine ⟨?_, hchain.2.2⟩
                show next.y2 ≤ r2.y1
                exact hchain.2.1)
        refine ⟨?_, hres.2⟩
        intro e he
        have := hres.1 e he
        refine ⟨this.1, this.2.1, this.2.2.1, ?_⟩
        have hy1 : current.y1 ≤
            ({ x1 := x, y1 := current.y1, x2 := x, y2 := next.y2, dir := .v } : Edge).y1 :=
          le_refl _
        exact le_trans hy1 this.2.2.2
      · rw [if_neg heq]
        have hlt : current.y2 < next.y1 := lt_of_le_of_ne hcn heq
        have hres := ih next hnextf.1 hnextf.2.1 hnextf.2.2
          (fun e he => hrest e (List.mem_cons_of_mem next he)) hchain.2
        constructor
        · intro e he
          rcases List.mem_cons.mp he with rfl | he'
          · exact ⟨h1, h2, h3, le_refl _⟩
          · have := hres.1 e he'
            refine ⟨this.1, this.2.1, this.2.2.1, ?_⟩
            have := this.2.2.2
            omega
        · rw [List.pairwise_cons]
          refine ⟨?_, hres.2⟩
          intro e he
          have := hres.1 e he
          have h4 := this.2.2.2
          omega

instance : IsTotal Edge (fun a b => a.x1 ≤ b.x1) :=
  ⟨fun a b => le_total a.x1 b.x1⟩

instance : IsTrans Edge (fun a b => a.x1 ≤ b.x1) :=
  ⟨fun _ _ _ h1 h2 => le_trans h1 h2⟩

instance : IsTotal Edge (fun a b => a.y1 ≤ b.y1) :=
  ⟨fun a b => le_total a.y1 b.y1⟩

instance : IsTrans Edge (fun a b => a.y1 ≤ b.y1) :=
  ⟨fun _ _ _ h1 h2 => le_trans h1 h2⟩

/-- Helper: a merged row consists of non-degenerate horizontal segments of
that row, pairwise strictly separated (no touching), provided the input
edges are unit edges of the row with pairwise distinct positions. -/
theorem mergeRowH_spec (y : ℤ) (es : List Edge)
    (hfacts : ∀ e ∈ es, e.x2 = e.x1 + 1 ∧ e.y1 = y ∧ e.y2 = y)
    (hdist : List.Pairwise (fun a b => a.x1 ≠ b.x1) es) :
    (∀ e ∈ mergeRowH y es, e.x1 < e.x2 ∧ e.y1 = y ∧ e.y2 = y) ∧
    List.Pairwise (fun a b => a.x2 < b.x1) (mergeRowH y es) := by
  unfold mergeRowH
  have hperm := List.perm_insertionSort (fun a b : Edge => a.x1 ≤ b.x1) es
  have hsorted := List.sorted_insertionSort (fun a b : Edge => a.x1 ≤ b.x1) es
  have hfs : ∀ e ∈ List.insertionSort (fun a b : Edge => a.x1 ≤ b.x1) es,
      e.x2 = e.x1 + 1 ∧ e.y1 = y ∧ e.y2 = y :=
    fun e he => hfacts e (hperm.mem_iff.mp he)
  have hds : List.Pairwise (fun a b => a.x1 ≠ b.x1)
      (List.insertionSort (fun a b : Edge => a.x1 ≤ b.x1) es) :=
    (hperm.pairwise_iff fun h => Ne.symm h).mpr hdist
  have hchain : List.Chain' (fun a b => a.x2 ≤ b.x1)
      (List.insertionSort (fun a b : Edge => a.x1 ≤ b.x1) es) := by
    apply List.Pairwise.chain'
    apply (hsorted.and hds).imp_of_mem
    intro a b ha _ hr
    have hfa := hfs a ha
    have hle : a.x1 ≤ b.x1 := hr.1
    have hne : a.x1 ≠ b.x1 := hr.2
    omega
  cases hsl : List.insertionSort (fun a b : Edge => a.x1 ≤ b.x1) es with
  | nil =>
      constructor
      · intro e he
        cases he
      · exact List.Pairwise.nil
  | cons e0 rest =>
      rw [hsl] at hfs hchain
      have he0 := hfs e0 (List.mem_cons_self e0 rest)
      have hres := mergeRunH_spec y rest e0 (by omega) he0.2.1 he0.2.2
        (fun e he => by
          have := hfs e (List.mem_cons_of_mem e0 he)
          exact ⟨by omega, this.2.1, this.2.2⟩)
        hchain
      exact ⟨fun e he => ⟨(hres.1 e he).1, (hres.1 e he).2.1, (hres.1 e he).2.2.1⟩, hres.2⟩

/-- Helper: the vertical analog of `mergeRowH_spec`. -/
theorem mergeColV_spec (x : ℤ) (es : List Edge)
    (hfacts : ∀ e ∈ es, e.y2 = e.y1 + 1 ∧ e.x1 = x ∧ e.x2 = x)
    (hdist : List.Pairwise (fun a b => a.y1 ≠ b.y1) es) :
    (∀ e ∈ mergeColV x es, e.y1 < e.y2 ∧ e.x1 = x ∧ e.x2 = x) ∧
    List.Pairwise (fun a b => a.y2 < b.y1) (mergeColV x es) := by
  unfold mergeColV
  have hperm := List.perm_insertionSort (fun a b : Edge => a.y1 ≤ b.y1) es
  have hsorted := List.sorted_insertionSort (fun a b : Edge => a.y1 ≤ b.y1) es
  have hfs : ∀ e ∈ List.insertionSort (fun a b : Edge => a.y1 ≤ b.y1) es,
      e.y2 = e.y1 + 1 ∧ e.x1 = x ∧ e.x2 = x :=
    fun e he => hfacts e (hperm.mem_iff.mp he)
  have hds : List.Pairwise (fun a b => a.y1 ≠ b.y1)
      (List.insertionSort (fun a b : Edge => a.y1 ≤ b.y1) es) :=
    (hperm.pairwise_iff fun h => Ne.symm h).mpr hdist
  have hchain : List.Chain' (fun a b => a.y2 ≤ b.y1)
      (List.insertionSort (fun a b : Edge => a.y1 ≤ b.y1) es) := by
    apply List.Pairwise.chain'
    apply (hsorted.and hds).imp_of_mem
    intro a b ha _ hr
    have hfa := hfs a ha
    have hle : a.y1 ≤ b.y1 := hr.1
    have hne : a.y1 ≠ b.y1 := hr.2
    omega
  cases hsl : List.insertionSort (fun a b : Edge => a.y1 ≤ b.y1) es with
  | nil =>
      constructor
      · intro e he
        cases he
      · exact List.Pairwise.nil
  | cons e0 rest =>
      rw [hsl] at hfs hchain
      have he0 := hfs e0 (List.mem_cons_self e0 rest)
      have hres := mergeRunV_spec x rest e0 (by omega) he0.2.1 he0.2.2
        (fun e he => by
          have := hfs e (List.mem_cons_of_mem e0 he)
          exact ⟨by omega, this.2.1, this.2.2⟩)
        hchain
      exact ⟨fun e he => ⟨(hres.1 e he).1, (hres.1 e he).2.1, (hres.1 e he).2.2.1⟩, hres.2⟩

/-- No end-to-end collinear contact between two merged edges: neither two
horizontal segments sharing a row where one ends exactly where the other
starts, nor the vertical analog on a column, in either order. -/
def noEndToEndTouch (e1 e2 : Edge) : Prop :=
  ¬ (e1.y1 = e1.y2 ∧ e2.y1 = e2.y2 ∧ e1.y1 = e2.y1 ∧ e1.x2 = e2.x1) ∧
  ¬ (e1.y1 = e1.y2 ∧ e2.y1 = e2.y2 ∧ e1.y1 = e2.y1 ∧ e2.x2 = e1.x1) ∧
  ¬ (e1.x1 = e1.x2 ∧ e2.x1 = e2.x2 ∧ e1.x1 = e2.x1 ∧ e1.y2 = e2.y1) ∧
  ¬ (e1.x1 = e1.x2 ∧ e2.x1 = e2.x2 ∧ e1.x1 = e2.x1 ∧ e2.y2 = e1.y1)

/-- The same relation on walls. -/
def wallsNoTouch (w1 w2 : Wall) : Prop :=
  ¬ (w1.y1 = w1.y2 ∧ w2.y1 = w2.y2 ∧ w1.y1 = w2.y1 ∧ w1.x2 = w2.x1) ∧
  ¬ (w1.y1 = w1.y2 ∧ w2.y1 = w2.y2 ∧ w1.y1 = w2.y1 ∧ w2.x2 = w1.x1) ∧
  ¬ (w1.x1 = w1.x2 ∧ w2.x1 = w2.x2 ∧ w1.x1 = w2.x1 ∧ w1.y2 = w2.y1) ∧
  ¬ (w1.x1 = w1.x2 ∧ w2.x1 = w2.x2 ∧ w1.x1 = w2.x1 ∧ w2.y2 = w1.y1)

/-- Helper: `mergeHorizontal` of separated unit edges yields non-degenerate
horizontal segments with no end-to-end collinear contact. -/
theorem mergeHorizontal_spec (edges : List Edge)
    (hshape : ∀ e ∈ edges, e.dir = .h → e.y2 = e.y1 ∧ e.x2 = e.x1 + 1)
    (hsep : List.Pairwise edgeSep edges) :
    (∀ e ∈ mergeHorizontal edges, e.x1 < e.x2 ∧ e.y1 = e.y2) ∧
    List.Pairwise noEndToEndTouch (mergeHorizontal edges) := by
  unfold mergeHorizontal
  have hgroup : ∀ (k : ℤ) (es : List Edge),
      (k, es) ∈ groupByKey (fun e => e.y1) (edges.filter fun e => e.dir = .h) →
      (∀ e ∈ mergeRowH k es, e.x1 < e.x2 ∧ e.y1 = k ∧ e.y2 = k) ∧
      List.Pairwise (fun a b => a.x2 < b.x1) (mergeRowH k es) := by
    intro k es hp
    have hes := mem_groupByKey hp
    subst hes
    apply mergeRowH_spec
    · intro e he
      rw [List.mem_filter] at he
      have hy : e.y1 = k := by simpa using he.2
      have hh := he.1
      rw [List.mem_filter] at hh
      have hdir : e.dir = Orient.h := by simpa using hh.2
      have := hshape e hh.1 hdir
      exact ⟨this.2, hy, by rw [this.1, hy]⟩
    · have h1 : List.Pairwise edgeSep
          ((edges.filter fun e => e.dir = .h).filter fun e => e.y1 = k) :=
        (hsep.filter _).filter _
      apply h1.imp_of_mem
      intro a b ha hb hab
      rw [List.mem_filter] at ha hb
      have hya : a.y1 = k := by simpa using ha.2
      have hyb : b.y1 = k := by simpa using hb.2
      have hda : a.dir = Orient.h := by
        have := ha.1
        rw [List.mem_filter] at this
        simpa using this.2
      have hdb : b.dir = Orient.h := by
        have := hb.1
        rw [List.mem_filter] at this
        simpa using this.2
      exact hab.1 hda hdb (hya.trans hyb.symm)
  constructor
  · intro e he
    rw [List.mem_flatMap] at he
    obtain ⟨p, hpG, hep⟩ := he
    obtain ⟨k, es⟩ := p
    have := (hgroup k es hpG).1 e hep
    exact ⟨this.1, this.2.1.trans this.2.2.symm⟩
  · rw [List.pairwise_flatMap]
    constructor
    · intro p hpG
      obtain ⟨k, es⟩ := p
      have hg := hgroup k es hpG
      apply hg.2.imp_of_mem
      intro a b ha hb hlt
      have hfa := hg.1 a ha
      have hfb := hg.1 b hb
      refine ⟨?_, ?_, ?_, ?_⟩ <;> rintro ⟨h1', h2', h3', h4'⟩ <;> omega
    · have hkeys := groupByKey_keys_pairwise (fun e => e.y1)
        (edges.filter fun e => e.dir = .h)
      apply hkeys.imp_of_mem
      intro p q hp hq hne'
      obtain ⟨k1, es1⟩ := p
      obtain ⟨k2, es2⟩ := q
      intro e1 he1 e2 he2
      have hf1 := (hgroup k1 es1 hp).1 e1 he1
      have hf2 := (hgroup k2 es2 hq).1 e2 he2
      have hkk : k1 ≠ k2 := by simpa using hne'
      refine ⟨?_, ?_, ?_, ?_⟩ <;> rintro ⟨h1', h2', h3', h4'⟩ <;> omega

/-- Helper: the vertical analog of `mergeHorizontal_spec`. -/
theorem mergeVertical_spec (edges : List Edge)
    (hshape : ∀ e ∈ edges, e.dir = .v → e.x2 = e.x1 ∧ e.y2 = e.y1 + 1)
    (hsep : List.Pairwise edgeSep edges) :
    (∀ e ∈ mergeVertical edges, e.y1 < e.y2 ∧ e.x1 = e.x2) ∧
    List.Pairwise noEndToEndTouch (mergeVertical edges) := by
  unfold mergeVertical
  have hgroup : ∀ (k : ℤ) (es : List Edge),
      (k, es) ∈ groupByKey (fun e => e.x1) (edges.filter fun e => e.dir = .v) →
      (∀ e ∈ mergeColV k es, e.y1 < e.y2 ∧ e.x1 = k ∧ e.x2 = k) ∧
      List.Pairwise (fun a b => a.y2 < b.y1) (mergeColV k es) := by
    intro k es hp
    have hes := mem_groupByKey hp
    subst hes
    apply mergeColV_spec
    · intro e he
      rw [List.mem_filter] at he
      have hx : e.x1 = k := by simpa using he.2
      have hh := he.1
      rw [List.mem_filter] at hh
      have hdir : e.dir = Orient.v := by simpa using hh.2
      have := hshape e hh.1 hdir
      exact ⟨this.2, hx, by rw [this.1, hx]⟩
    · have h1 : List.Pairwise edgeSep
          ((edges.filter fun e => e.dir = .v).filter fun e => e.x1 = k) :=
        (hsep.filter _).filter _
      apply h1.imp_of_mem
      intro a b ha hb hab
      rw [List.mem_filter] at ha hb
      have hxa : a.x1 = k := by simpa using ha.2
      have hxb : b.x1 = k := by simpa using hb.2
      have hda : a.dir = Orient.v := by
        have := ha.1
        rw [List.mem_filter] at this
        simpa using this.2
      have hdb : b.dir = Orient.v := by
        have := hb.1
        rw [List.mem_filter] at this
        simpa using this.2
      exact hab.2 hda hdb (hxa.trans hxb.symm)
  constructor
  · intro e he
    rw [List.mem_flatMap] at he
    obtain ⟨p, hpG, hep⟩ := he
    obtain ⟨k, es⟩ := p
    have := (hgroup k es hpG).1 e hep
    exact ⟨this.1, this.2.1.trans this.2.2.symm⟩
  · rw [List.pairwise_flatMap]
    constructor
    · intro p hpG
      obtain ⟨k, es⟩ := p
      have hg := hgroup k es hpG
      apply hg.2.imp_of_mem
      intro a b ha hb hlt
      have hfa := hg.1 a ha
      have hfb := hg.1 b hb
      refine ⟨?_, ?_, ?_, ?_⟩ <;> rintro ⟨h1', h2', h3', h4'⟩ <;> omega
    · have hkeys := groupByKey_keys_pairwise (fun e => e.x1)
        (edges.filter fun e => e.dir = .v)
      apply hkeys.imp_of_mem
      intro p q hp hq hne'
      obtain ⟨k1, es1⟩ := p
      obtain ⟨k2, es2⟩ := q
      intro e1 he1 e2 he2
      have hf1 := (hgroup k1 es1 hp).1 e1 he1
      have hf2 := (hgroup k2 es2 hq).1 e2 he2
      have hkk : k1 ≠ k2 := by simpa using hne'
      refine ⟨?_, ?_, ?_, ?_⟩ <;> rintro ⟨h1', h2', h3', h4'⟩ <;> omega

/-- Helper: the full merged edge list of separated unit edges has no
end-to-end collinear contact anywhere. -/
theorem mergeEdges_spec (edges : List Edge)
    (hshapeH : ∀ e ∈ edges, e.dir = .h → e.y2 = e.y1 ∧ e.x2 = e.x1 + 1)
    (hshapeV : ∀ e ∈ edges, e.dir = .v → e.x2 = e.x1 ∧ e.y2 = e.y1 + 1)
    (hsep : List.Pairwise edgeSep edges) :
    List.Pairwise noEndToEndTouch (mergeEdges edges) := by
  have hH := mergeHorizontal_spec edges hshapeH hsep
  have hV := mergeVertical_spec edges hshapeV hsep
  unfold mergeEdges
  rw [List.pairwise_append]
  refine ⟨hH.2, hV.2, ?_⟩
  intro a ha b hb
  have hfa := hH.1 a ha
  have hfb := hV.1 b hb
  refine ⟨?_, ?_, ?_, ?_⟩ <;> rintro ⟨h1', h2', h3', h4'⟩ <;> omega

/-- Helper: an entry of an indexed enumeration is a member of the
underlying list. -/
theorem mem_of_mem_enumFrom {l : List Edge} {n i : ℕ} {e : Edge}
    (h : (i, e) ∈ l.enumFrom n) : e ∈ l := by
  obtain ⟨-, -, heq⟩ := List.mem_enumFrom h
  rw [heq]
  exact List.getElem_mem _

/-- Helper: assigning ids to merged edges preserves the no-touch
property — the wall coordinates are exactly the edge coordinates. -/
theorem pairwise_wallsNoTouch_of_edges (makeId : ℕ → String) :
    ∀ (l : List Edge) (n : ℕ), List.Pairwise noEndToEndTouch l →
      List.Pairwise wallsNoTouch ((l.enumFrom n).map fun p =>
        ({ id := makeId p.1, x1 := p.2.x1, y1 := p.2.y1,
           x2 := p.2.x2, y2 := p.2.y2 } : Wall)) := by
  intro l
  induction l with
  | nil =>
      intro n _
      exact List.Pairwise.nil
  | cons a rest ih =>
      intro n hp
      rw [List.pairwise_cons] at hp
      show List.Pairwise wallsNoTouch
        (({ id := makeId n, x1 := a.x1, y1 := a.y1, x2 := a.x2, y2 := a.y2 } : Wall)
          :: (rest.enumFrom (n + 1)).map _)
      rw [List.pairwise_cons]
      constructor
      · intro w hw
        rcases List.mem_map.mp hw with ⟨⟨i, e⟩, hpe, rfl⟩
        have he : e ∈ rest := mem_of_mem_enumFrom hpe
        exact hp.1 e he
      · exact ih (n + 1) hp.2

/-- C2 (confirmed). For every non-empty, duplicate-free cell set, the wall
list produced by perimeter extraction followed by edge merging contains no
two collinear walls that touch end-to-end: no two horizontal walls share a
row with one's `x2` equal to the other's `x1`, and no two vertical walls
share a column with one's `y2` equal to the other's `y1` (maximal merge
achieved). -/
theorem perimeterWalls_maximal_merge (cells : List Cell) (hne : cells ≠ [])
    (hnd : cells.Nodup) (makeId : ℕ → String) :
    List.Pairwise wallsNoTouch (perimeterWallsFromCellKeys cells makeId) := by
  unfold perimeterWallsFromCellKeys
  have hsep := perimeter_pairwise_sep cells hnd
  have hshape := perimeter_edge_shape cells
  have hmerged := mergeEdges_spec (perimeterEdgesFromCellKeys cells)
    (fun e he hd => (hshape e he).1 hd)
    (fun e he hd => (hshape e he).2 hd)
    hsep
  exact pairwise_wallsNoTouch_of_edges makeId _ 0 hmerged

/-- C2 witness. The spec scenario: the 2×2 draft `{(0,0),(1,0),(0,1),(1,1)}`
merges into exactly 4 perimeter walls, and the theorem instantiated there
shows none of them touch end-to-end collinearly. -/
theorem perimeterWalls_maximal_merge_witness :
    (perimeterWallsFromCellKeys [((0 : ℤ), (0 : ℤ)), (1, 0), (0, 1), (1, 1)]
      (fun _ => "w")).length = 4 ∧
    List.Pairwise wallsNoTouch
      (perimeterWallsFromCellKeys [((0 : ℤ), (0 : ℤ)), (1, 0), (0, 1), (1, 1)]
        (fun _ => "w")) :=
  ⟨by decide,
   perimeterWalls_maximal_merge [((0 : ℤ), (0 : ℤ)), (1, 0), (0, 1), (1, 1)]
     (by decide) (by decide) (fun _ => "w")⟩
